import Mathlib

/-!
Verification of the reader/printer core of a mal (make-a-lisp) implementation
written in Rust (src/parser.rs, src/reader.rs, src/printer.rs, src/types.rs).

The embedding is byte-faithful where it matters: the Rust parser stores a
`String` and a byte position `pos`; `peek` slices the input at `pos`
(`self.input[self.pos..]`, which panics when `pos` is not a UTF-8 character
boundary) while `consume_char` advances `pos` by exactly one byte.  We model
the input as a `List Char` together with a byte offset, and model a panic
(a Rust abort, no value returned) as the outer `none` of an
`Option (Except _ _)` result.  Loops are written with an explicit fuel
argument so that every definition is a computable structural recursion; the
fuel supplied by the top-level entry points (one more than the byte length
of the input, resp. twice the token count plus two) exceeds the number of
iterations any run can take, each iteration strictly advancing the cursor.
-/

namespace Mal

/-- Total UTF-8 byte length of a character list (models `str::len`). -/
def utf8Len : List Char → Nat
  | [] => 0
  | c :: rest => c.utf8Size + utf8Len rest

/-- All characters encode in a single UTF-8 byte (the ASCII range), the
hypothesis under which byte offsets and character offsets agree. -/
def OneByte (cs : List Char) : Prop := ∀ c ∈ cs, c.utf8Size = 1

instance (cs : List Char) : Decidable (OneByte cs) := by
  unfold OneByte; infer_instance

/-- Models `self.input[self.pos..].chars().next()` on a `List Char` carrying a
byte offset: `some (some c)` is a character, `some none` is end of input, and
`none` is the panic Rust raises when the offset is out of range or inside a
multi-byte character (string slicing off a char boundary). -/
def peekBytes : List Char → Nat → Option (Option Char)
  | [], 0 => some none
  | [], _ + 1 => none
  | c :: rest, pos =>
    if pos = 0 then some (some c)
    else if pos < c.utf8Size then none
    else peekBytes rest (pos - c.utf8Size)

/-- Models Rust `char::is_whitespace` (the Unicode White_Space property,
a fixed 25-element set). -/
def rust_is_whitespace (c : Char) : Bool :=
  c.toNat = 0x09 || c.toNat = 0x0a || c.toNat = 0x0b || c.toNat = 0x0c ||
  c.toNat = 0x0d || c.toNat = 0x20 || c.toNat = 0x85 || c.toNat = 0xa0 ||
  c.toNat = 0x1680 || (0x2000 ≤ c.toNat && c.toNat ≤ 0x200a) ||
  c.toNat = 0x2028 || c.toNat = 0x2029 || c.toNat = 0x202f ||
  c.toNat = 0x205f || c.toNat = 0x3000

/-- Models Rust `char::is_alphanumeric` on the ASCII range (exact there; the
full Unicode Alphabetic/Nd/Nl/No tables are not reproduced — every theorem
that quantifies over inputs restricts them to single-byte characters, where
this definition coincides with Rust's). -/
def rust_is_alphanumeric (c : Char) : Bool :=
  (0x30 ≤ c.toNat && c.toNat ≤ 0x39) ||
  (0x41 ≤ c.toNat && c.toNat ≤ 0x5a) ||
  (0x61 ≤ c.toNat && c.toNat ≤ 0x7a)

/-- parser.rs lines 76-78: alphanumeric or one of a fixed punctuation set
(which includes the two-byte characters `£` and `¬`). -/
def is_symbol_character (c : Char) : Bool :=
  rust_is_alphanumeric c || "!£$%&*-_=+<>.#|¬/?".data.contains c

/-- parser.rs lines 7-28. -/
inductive Token where
  | LParen
  | RParen
  | LBracket
  | RBracket
  | LBrace
  | RBrace
  | Quote
  | Quasiquote
  | Unquote
  | SpliceUnquote
  | Deref
  | WithMeta
  | Symbol (s : String)
  | Keyword (s : String)
  | String (s : String)
  | Int (n : Int)
  | Nil
  | True
  | False
deriving DecidableEq

/-- parser.rs lines 35-45.  The `ParseIntError` payload of the `ParseInt`
variant is dropped: the source never constructs that variant (the numeric
fallback in `parse_bare_sequence` swallows the error), which is proved below. -/
inductive ParseError where
  | UnexpectedCharacter (got : Char) (expected : Option Char) (pos : Nat)
  | UnexpectedEndOfInput (pos : Nat)
  | ParseInt (pos : Nat)
  | UnknownEscapeSequence (c : Char) (pos : Nat)
deriving DecidableEq

/-- An ASCII decimal digit. -/
def is_ascii_digit (c : Char) : Bool := 0x30 ≤ c.toNat && c.toNat ≤ 0x39

/-- Value of a digit string, most significant first (accumulator form). -/
def digitsToNatAux : Nat → List Char → Nat
  | acc, [] => acc
  | acc, c :: rest => digitsToNatAux (acc * 10 + (c.toNat - 0x30)) rest

/-- Models `str::parse::<i32>`: an optional sign followed by a nonempty run
of ASCII decimal digits, rejected (as Rust's overflow error) outside the
32-bit two's-complement range. -/
def parse_i32 (s : List Char) : Option Int :=
  match s with
  | [] => none
  | c :: rest =>
    if c = '+' then
      if rest ≠ [] && rest.all is_ascii_digit then
        if digitsToNatAux 0 rest ≤ 2 ^ 31 - 1 then some (digitsToNatAux 0 rest) else none
      else none
    else if c = '-' then
      if rest ≠ [] && rest.all is_ascii_digit then
        if digitsToNatAux 0 rest ≤ 2 ^ 31 then some (-(digitsToNatAux 0 rest : Int)) else none
      else none
    else
      if (c :: rest).all is_ascii_digit then
        if digitsToNatAux 0 (c :: rest) ≤ 2 ^ 31 - 1 then some (digitsToNatAux 0 (c :: rest))
        else none
      else none

/-- parser.rs lines 80-82 (`Parser::peek`). -/
def peek (input : List Char) (pos : Nat) : Option (Option Char) := peekBytes input pos

/-- parser.rs lines 84-86 (`Parser::consume_char`): one byte, regardless of
the width of the character at the cursor. -/
def consume_char (pos : Nat) : Nat := pos + 1

/-- parser.rs lines 88-101 (`Parser::expect_char`). -/
def expect_char (input : List Char) (pos : Nat) (expected : Char) :
    Option (Except ParseError Nat) :=
  match peek input pos with
  | none => none
  | some (some c) =>
    if c = expected then some (.ok (consume_char pos))
    else some (.error (.UnexpectedCharacter c (some expected) pos))
  | some none => some (.error (.UnexpectedEndOfInput pos))

/-- The loop condition of parser.rs line 105: a comma or whitespace. -/
def ws_char (c : Char) : Bool := c = ',' || rust_is_whitespace c

/-- parser.rs lines 103-111 (`Parser::consume_whitespace`), with fuel. -/
def consume_whitespaceF (input : List Char) : Nat → Nat → Option Nat
  | 0, _ => none
  | fuel + 1, pos =>
    match peek input pos with
    | none => none
    | some (some c) =>
      if ws_char c then consume_whitespaceF input fuel (consume_char pos)
      else some pos
    | some none => some pos

def consume_whitespace (input : List Char) (pos : Nat) : Option Nat :=
  consume_whitespaceF input (utf8Len input + 1) pos

/-- parser.rs lines 113-123 (`Parser::take_while`), with fuel. -/
def take_whileF (input : List Char) (predicate : Char → Bool) :
    Nat → Nat → Option (List Char × Nat)
  | 0, _ => none
  | fuel + 1, pos =>
    match peek input pos with
    | none => none
    | some (some c) =>
      if predicate c then
        match take_whileF input predicate fuel (consume_char pos) with
        | none => none
        | some (result, p) => some (c :: result, p)
      else some ([], pos)
    | some none => some ([], pos)

def take_while (input : List Char) (predicate : Char → Bool) (pos : Nat) :
    Option (List Char × Nat) :=
  take_whileF input predicate (utf8Len input + 1) pos

/-- parser.rs lines 125-142 (`Parser::parse_bare_sequence`); the
`named_types` hash-map lookup is written as a three-way comparison. -/
def parse_bare_sequence (input : List Char) (pos : Nat) : Option (Token × Nat) :=
  match take_while input is_symbol_character pos with
  | none => none
  | some (sequence, p) =>
    if String.mk sequence = "nil" then some (.Nil, p)
    else if String.mk sequence = "true" then some (.True, p)
    else if String.mk sequence = "false" then some (.False, p)
    else
      match parse_i32 sequence with
      | some int => some (.Int int, p)
      | none => some (.Symbol (String.mk sequence), p)

/-- parser.rs lines 144-147 (`Parser::parse_keyword`). -/
def parse_keyword (input : List Char) (pos : Nat) : Option (Except ParseError (Token × Nat)) :=
  match expect_char input pos ':' with
  | none => none
  | some (.error e) => some (.error e)
  | some (.ok p) =>
    match take_while input rust_is_alphanumeric p with
    | none => none
    | some (result, p') => some (.ok (.Keyword (String.mk result), p'))

/-- The `while let` loop of parser.rs lines 152-177, with the `escaping` flag
and the accumulated contents as parameters; returns the contents and the
cursor at loop exit (either at an unescaped `"` or at end of input). -/
def parse_string_loopF (input : List Char) :
    Nat → Nat → List Char → Bool → Option (Except ParseError (List Char × Nat))
  | 0, _, _, _ => none
  | fuel + 1, pos, result, escaping =>
    match peek input pos with
    | none => none
    | some none => some (.ok (result, pos))
    | some (some c) =>
      if (c = '\\' || c = '"') && escaping then
        parse_string_loopF input fuel (consume_char pos) (result ++ [c]) false
      else if c = 'n' && escaping then
        parse_string_loopF input fuel (consume_char pos) (result ++ ['\n']) false
      else if c = '\\' && !escaping then
        parse_string_loopF input fuel (consume_char pos) result true
      else if c = '"' && !escaping then some (.ok (result, pos))
      else if escaping then some (.error (.UnknownEscapeSequence c pos))
      else parse_string_loopF input fuel (consume_char pos) (result ++ [c]) false

/-- parser.rs lines 149-181 (`Parser::parse_string`). -/
def parse_string (input : List Char) (pos : Nat) : Option (Except ParseError (Token × Nat)) :=
  match expect_char input pos '"' with
  | none => none
  | some (.error e) => some (.error e)
  | some (.ok p) =>
    match parse_string_loopF input (utf8Len input + 1) p [] false with
    | none => none
    | some (.error e) => some (.error e)
    | some (.ok (result, p')) =>
      match expect_char input p' '"' with
      | none => none
      | some (.error e) => some (.error e)
      | some (.ok p'') => some (.ok (.String (String.mk result), p''))

/-- parser.rs lines 183-247 (`Parser::parse_token`): `none` in the token
component means "no token here" (a comment or end of input). -/
def parse_token (input : List Char) (pos : Nat) :
    Option (Except ParseError (Option Token × Nat)) :=
  match consume_whitespace input pos with
  | none => none
  | some p =>
    match peek input p with
    | none => none
    | some none => some (.ok (none, p))
    | some (some c) =>
      if c = ';' then some (.ok (none, p))
      else if c = '(' then some (.ok (some .LParen, consume_char p))
      else if c = ')' then some (.ok (some .RParen, consume_char p))
      else if c = '[' then some (.ok (some .LBracket, consume_char p))
      else if c = ']' then some (.ok (some .RBracket, consume_char p))
      else if c = '\x7b' then some (.ok (some .LBrace, consume_char p))
      else if c = '\x7d' then some (.ok (some .RBrace, consume_char p))
      else if c = '\'' then some (.ok (some .Quote, consume_char p))
      else if c = '`' then some (.ok (some .Quasiquote, consume_char p))
      else if c = '~' then
        match peek input (consume_char p) with
        | none => none
        | some (some c') =>
          if c' = '@' then some (.ok (some .SpliceUnquote, consume_char (consume_char p)))
          else some (.ok (some .Unquote, consume_char p))
        | some none => some (.ok (some .Unquote, consume_char p))
      else if c = '@' then some (.ok (some .Deref, consume_char p))
      else if c = '^' then some (.ok (some .WithMeta, consume_char p))
      else if c = ':' then
        match parse_keyword input p with
        | none => none
        | some (.error e) => some (.error e)
        | some (.ok (token, p')) => some (.ok (some token, p'))
      else if c = '"' then
        match parse_string input p with
        | none => none
        | some (.error e) => some (.error e)
        | some (.ok (token, p')) => some (.ok (some token, p'))
      else if is_symbol_character c then
        match parse_bare_sequence input p with
        | none => none
        | some (token, p') => some (.ok (some token, p'))
      else some (.error (.UnexpectedCharacter c none p))

/-- parser.rs lines 249-255 (`Parser::tokenize`): the driving loop, which
stops as soon as `parse_token` produces no token. -/
def tokenizeF (input : List Char) : Nat → Nat → Option (Except ParseError (List Token))
  | 0, _ => none
  | fuel + 1, pos =>
    match parse_token input pos with
    | none => none
    | some (.error e) => some (.error e)
    | some (.ok (none, _)) => some (.ok [])
    | some (.ok (some token, p)) =>
      match tokenizeF input fuel p with
      | none => none
      | some (.error e) => some (.error e)
      | some (.ok tokens) => some (.ok (token :: tokens))

def tokenizeL (input : List Char) : Option (Except ParseError (List Token)) :=
  tokenizeF input (utf8Len input + 1) 0

/-- parser.rs lines 258-260 (`tokenize`). -/
def tokenize (input : String) : Option (Except ParseError (List Token)) :=
  tokenizeL input.data

/-- types.rs lines 29-47. -/
inductive Atom where
  | Symbol (s : String)
  | Keyword (s : String)
  | String (s : String)
  | Int (n : Int)
  | Nil
  | True
  | False
deriving DecidableEq

/-- types.rs lines 4-15.  `HashMap<Atom, Value>` is modelled as an
association list maintained by `hm_insert` (one fixed iteration order of the
unordered Rust map; every claim below is insensitive to that order). -/
inductive Value where
  | Atom (atom : Atom)
  | List (items : List Value)
  | Vector (items : List Value)
  | HashMap (map : List (Atom × Value))

/-- reader.rs lines 11-25. -/
inductive ReadError where
  | UnexpectedToken (got : Token) (expected : Option Token) (pos : Nat)
  | UnexpectedEndOfInput (pos : Nat)
  | UnhashableType (value : Value) (pos : Nat)
  | UnevenHashMap (pos : Nat)
  | Parse (e : ParseError)
  | NoInput

namespace Reader

/-- reader.rs lines 62-68 (`Reader::peek`): `pos` here indexes the token
vector, not the source text. -/
def peek (tokens : List Token) (pos : Nat) : Option Token := tokens.get? pos

end Reader

/-- Models `HashMap::insert`: replace the value of an existing key, else add
the pair. -/
def hm_insert (map : List (Atom × Value)) (k : Atom) (v : Value) : List (Atom × Value) :=
  match map with
  | [] => [(k, v)]
  | (k', v') :: rest => if k' = k then (k, v) :: rest else (k', v') :: hm_insert rest k v

/-- The pairing loop of reader.rs lines 101-113 (`Reader::read_map`): `pos`
is the reader's token position after the closing brace, used verbatim in both
errors. -/
def read_map_pairs (pos : Nat) : List Value → List (Atom × Value) →
    Except ReadError (List (Atom × Value))
  | [], map => .ok map
  | [_], _ => .error (.UnevenHashMap pos)
  | k :: v :: rest, map =>
    match k with
    | .Atom atom => read_map_pairs pos rest (hm_insert map atom v)
    | _ => .error (.UnhashableType k pos)

/-- reader.rs lines 132-176 (`Reader::read_atom`), parameterized by the
recursive form reader `rf` (the reader macros' operand reads).  `self.next()`
is the peek at `pos` followed, on success, by the increment visible in the
`pos + 1` threaded below — so the `UnexpectedToken` error carries the already
incremented position. -/
def read_atom (rf : Nat → Option (Except ReadError (Value × Nat)))
    (tokens : List Token) (pos : Nat) : Option (Except ReadError (Value × Nat)) :=
  match Reader.peek tokens pos with
  | some t =>
    match t with
    | .Quote =>
      match rf (pos + 1) with
      | none => none
      | some (.error e) => some (.error e)
      | some (.ok (form, p)) =>
        some (.ok (.List [.Atom (.Symbol "quote"), form], p))
    | .Quasiquote =>
      match rf (pos + 1) with
      | none => none
      | some (.error e) => some (.error e)
      | some (.ok (form, p)) =>
        some (.ok (.List [.Atom (.Symbol "quasiquote"), form], p))
    | .Unquote =>
      match rf (pos + 1) with
      | none => none
      | some (.error e) => some (.error e)
      | some (.ok (form, p)) =>
        some (.ok (.List [.Atom (.Symbol "unquote"), form], p))
    | .SpliceUnquote =>
      match rf (pos + 1) with
      | none => none
      | some (.error e) => some (.error e)
      | some (.ok (form, p)) =>
        some (.ok (.List [.Atom (.Symbol "splice-unquote"), form], p))
    | .Deref =>
      match rf (pos + 1) with
      | none => none
      | some (.error e) => some (.error e)
      | some (.ok (form, p)) =>
        some (.ok (.List [.Atom (.Symbol "deref"), form], p))
    | .WithMeta =>
      match rf (pos + 1) with
      | none => none
      | some (.error e) => some (.error e)
      | some (.ok (metadata, p)) =>
        match rf p with
        | none => none
        | some (.error e) => some (.error e)
        | some (.ok (target, p')) =>
          some (.ok (.List [.Atom (.Symbol "with-meta"), target, metadata], p'))
    | .Symbol sym => some (.ok (.Atom (.Symbol sym), pos + 1))
    | .Keyword keyword => some (.ok (.Atom (.Keyword keyword), pos + 1))
    | .String string => some (.ok (.Atom (.String string), pos + 1))
    | .Int int => some (.ok (.Atom (.Int int), pos + 1))
    | .Nil => some (.ok (.Atom .Nil, pos + 1))
    | .True => some (.ok (.Atom .True, pos + 1))
    | .False => some (.ok (.Atom .False, pos + 1))
    | t => some (.error (.UnexpectedToken t none (pos + 1)))
  | none => some (.error (.UnexpectedEndOfInput pos))

/-- reader.rs lines 118-130 (`Reader::read_list_items`), parameterized by the
recursive form reader and with fuel for the collecting loop. -/
def read_list_items (rf : Nat → Option (Except ReadError (Value × Nat)))
    (terminator : Token) (tokens : List Token) :
    Nat → Nat → Option (Except ReadError (List Value × Nat))
  | 0, _ => none
  | fuel + 1, pos =>
    match Reader.peek tokens pos with
    | some t =>
      if t = terminator then some (.ok ([], pos + 1))
      else
        match rf pos with
        | none => none
        | some (.error e) => some (.error e)
        | some (.ok (value, p)) =>
          match read_list_items rf terminator tokens fuel p with
          | none => none
          | some (.error e) => some (.error e)
          | some (.ok (items, p')) => some (.ok (value :: items, p'))
    | none => some (.error (.UnexpectedEndOfInput pos))

/-- reader.rs lines 70-116 (`Reader::read_form` with `read_list`,
`read_vector` and `read_map` inlined at their single call sites), by
recursion on fuel. -/
def read_form : Nat → List Token → Nat → Option (Except ReadError (Value × Nat))
  | 0, _, _ => none
  | fuel + 1, tokens, pos =>
    match Reader.peek tokens pos with
    | some .LParen =>
      match read_list_items (read_form fuel tokens) .RParen tokens fuel (pos + 1) with
      | none => none
      | some (.error e) => some (.error e)
      | some (.ok (items, p)) => some (.ok (.List items, p))
    | some .LBracket =>
      match read_list_items (read_form fuel tokens) .RBracket tokens fuel (pos + 1) with
      | none => none
      | some (.error e) => some (.error e)
      | some (.ok (items, p)) => some (.ok (.Vector items, p))
    | some .LBrace =>
      match read_list_items (read_form fuel tokens) .RBrace tokens fuel (pos + 1) with
      | none => none
      | some (.error e) => some (.error e)
      | some (.ok (items, p)) =>
        match read_map_pairs p items [] with
        | .error e => some (.error e)
        | .ok map => some (.ok (.HashMap map, p))
    | some _ => read_atom (read_form fuel tokens) tokens pos
    | none => some (.error (.UnexpectedEndOfInput pos))

/-- reader.rs lines 191-198 (`read_str`) on a character list.  The reader
fuel `2 * tokens.length + 2` exceeds the depth of any run (every second
recursive call consumes a token). -/
def read_strL (input : List Char) : Option (Except ReadError Value) :=
  match tokenizeL input with
  | none => none
  | some (.error e) => some (.error (.Parse e))
  | some (.ok []) => some (.error .NoInput)
  | some (.ok tokens) =>
    match read_form (2 * tokens.length + 2) tokens 0 with
    | none => none
    | some (.error e) => some (.error e)
    | some (.ok (value, _)) => some (.ok value)

/-- reader.rs lines 191-198 (`read_str`). -/
def read_str (input : String) : Option (Except ReadError Value) := read_strL input.data

/-- One entry of the escape table of printer.rs line 6. -/
def escape_string_char (c : Char) : List Char :=
  if c = '"' then ['\\', '"']
  else if c = '\\' then ['\\', '\\']
  else if c = '\n' then ['\\', 'n']
  else [c]

/-- The character loop of printer.rs lines 5-15. -/
def escape_chars : List Char → List Char
  | [] => []
  | c :: rest => escape_string_char c ++ escape_chars rest

/-- printer.rs lines 5-15 (`escape_string`). -/
def escape_string (string : String) : String := String.mk (escape_chars string.data)

/-- Decimal digits of a natural number, least significant first, with fuel
(the number of digits of `n` is at most `n + 1`, so the fuel supplied by
`int_chars` is ample). -/
def nat_digits_rev_f : Nat → Nat → List Char
  | 0, _ => []
  | fuel + 1, n =>
    if n < 10 then [Nat.digitChar n]
    else Nat.digitChar (n % 10) :: nat_digits_rev_f fuel (n / 10)

/-- Models `format!` of an `i32`: minus sign for negatives, decimal digits
with no leading zeros. -/
def int_chars (n : Int) : List Char :=
  if n < 0 then '-' :: (nat_digits_rev_f ((-n).toNat + 1) (-n).toNat).reverse
  else (nat_digits_rev_f (n.toNat + 1) n.toNat).reverse

/-- The `Value::Atom` arm of printer.rs lines 27-41. -/
def pr_atom_chars : Atom → Bool → List Char
  | .Symbol sym, _ => sym.data
  | .Keyword keyword, _ => ':' :: keyword.data
  | .String string, pretty =>
    if pretty then string.data else '"' :: escape_chars string.data ++ ['"']
  | .Int int, _ => int_chars int
  | .Nil, _ => "nil".data
  | .True, _ => "true".data
  | .False, _ => "false".data

mutual

/-- printer.rs lines 25-53 (`pr_str`), producing the character list of the
output; `pr_items_chars` is `pr_list_items` (lines 17-23, a space join of
non-pretty renderings) and `pr_map_chars` is the flattening loop of the
`HashMap` arm applied to the association list's order (its pushed
`Value::Atom(k)` elements render through `pr_atom_chars`, the atom arm). -/
def pr_chars : Value → Bool → List Char
  | .Atom a, pretty => pr_atom_chars a pretty
  | .List items, _ => '(' :: pr_items_chars items ++ [')']
  | .Vector items, _ => '[' :: pr_items_chars items ++ [']']
  | .HashMap map, _ => '\x7b' :: pr_map_chars map ++ ['\x7d']

def pr_items_chars : List Value → List Char
  | [] => []
  | [value] => pr_chars value false
  | value :: rest => pr_chars value false ++ ' ' :: pr_items_chars rest

def pr_map_chars : List (Atom × Value) → List Char
  | [] => []
  | [(k, v)] => pr_atom_chars k false ++ ' ' :: pr_chars v false
  | (k, v) :: rest =>
    pr_atom_chars k false ++ ' ' :: pr_chars v false ++ ' ' :: pr_map_chars rest

end

/-- printer.rs lines 25-53 (`pr_str`). -/
def pr_str (value : Value) (pretty : Bool) : String := String.mk (pr_chars value pretty)

/-- A symbol name that the tokenizer reads back as the same symbol token: a
nonempty run of single-byte symbol-constituent characters that is not one of
the named literals and does not parse as a 32-bit integer. -/
def symbol_readable (s : String) : Bool :=
  !s.data.isEmpty &&
  s.data.all (fun c => is_symbol_character c && c.utf8Size == 1) &&
  !(s == "nil") && !(s == "true") && !(s == "false") &&
  (parse_i32 s.data).isNone

/-- A keyword name that the tokenizer reads back unchanged: a run of
(single-byte) alphanumeric characters. -/
def keyword_readable (s : String) : Bool := s.data.all rust_is_alphanumeric

/-- String contents of single-byte characters (multi-byte contents make the
re-tokenization panic, see the safety claim). -/
def string_readable (s : String) : Bool := s.data.all (fun c => c.utf8Size == 1)

/-- The atoms whose printed form re-tokenizes to the same atom; the integer
bound is automatic in the Rust source, where `Atom::Int` holds an `i32`. -/
def atom_readable : Atom → Bool
  | .Symbol s => symbol_readable s
  | .Keyword s => keyword_readable s
  | .String s => string_readable s
  | .Int n => decide (-(2 ^ 31) ≤ n) && decide (n < 2 ^ 31)
  | .Nil => true
  | .True => true
  | .False => true

mutual

/-- Built from `Atom`, `List` and `Vector` only, with re-readable atoms. -/
def value_readable : Value → Bool
  | .Atom a => atom_readable a
  | .List items => values_readable items
  | .Vector items => values_readable items
  | .HashMap _ => false

def values_readable : List Value → Bool
  | [] => true
  | v :: rest => value_readable v && values_readable rest

end

/-- The token the tokenizer produces for a printed atom. -/
def atom_token : Atom → Token
  | .Symbol s => .Symbol s
  | .Keyword s => .Keyword s
  | .String s => .String s
  | .Int n => .Int n
  | .Nil => .Nil
  | .True => .True
  | .False => .False

mutual

/-- The token sequence of a printed (non-pretty) value. -/
def flat_tokens : Value → List Token
  | .Atom a => [atom_token a]
  | .List items => .LParen :: flat_items items ++ [.RParen]
  | .Vector items => .LBracket :: flat_items items ++ [.RBracket]
  | .HashMap map => .LBrace :: flat_map_tokens map ++ [.RBrace]

def flat_items : List Value → List Token
  | [] => []
  | v :: rest => flat_tokens v ++ flat_items rest

def flat_map_tokens : List (Atom × Value) → List Token
  | [] => []
  | (k, v) :: rest => atom_token k :: flat_tokens v ++ flat_map_tokens rest

end

/-- What the position stored in a tokenizer error designates, on single-byte
input: `UnexpectedCharacter` and `UnknownEscapeSequence` point at the
offending character, `UnexpectedEndOfInput` is the input length, and the
`ParseInt` variant is never produced at all. -/
def parse_err_facts (cs : List Char) : ParseError → Prop
  | .UnexpectedCharacter got _ p => cs.get? p = some got
  | .UnexpectedEndOfInput p => p = cs.length
  | .ParseInt _ => False
  | .UnknownEscapeSequence c p => cs.get? p = some c

/-- What the position stored in a reader error designates: an index into the
token sequence (one past the offending token for `UnexpectedToken`, the token
count for `UnexpectedEndOfInput`); `read_form` never produces the `Parse`
wrapper or `NoInput` itself. -/
def read_err_facts (tokens : List Token) : ReadError → Prop
  | .UnexpectedToken got _ p => tokens.get? (p - 1) = some got
  | .UnexpectedEndOfInput p => p = tokens.length
  | .UnhashableType _ p => p ≤ tokens.length
  | .UnevenHashMap p => p ≤ tokens.length
  | .Parse _ => False
  | .NoInput => False

/-- Number of leading characters accepted by the whitespace loop. -/
def leading_ws : List Char → Nat
  | [] => 0
  | c :: t => if ws_char c then leading_ws t + 1 else 0

/-- parse_token produced this token moving the cursor from `p` to `q`. -/
def emits (cs : List Char) (p : Nat) (t : Token) (q : Nat) : Prop :=
  parse_token cs p = some (.ok (some t, q))

/-- A chain of token productions from byte offset `p` to byte offset `q`,
each strictly advancing the cursor. -/
inductive tok_seq (cs : List Char) : Nat → List Token → Nat → Prop
  | nil (p : Nat) : tok_seq cs p [] p
  | cons (p : Nat) (t : Token) (q : Nat) (ts : List Token) (r : Nat) :
      emits cs p t q → p < q → tok_seq cs q ts r → tok_seq cs p (t :: ts) r

/-! ### Byte offsets and character offsets on single-byte input -/

theorem utf8Len_eq_length (cs : List Char) (h : OneByte cs) : utf8Len cs = cs.length := by
  induction cs with
  | nil => rfl
  | cons c rest ih =>
    have hc : c.utf8Size = 1 := h c (by simp)
    have h' : OneByte rest := fun x hx => h x (by simp [hx])
    simp [utf8Len, hc, ih h']
    omega

theorem one_byte_mk_data (s : String) : OneByte (String.mk s.data).data ↔ OneByte s.data := by
  rfl

theorem get?_eq_head_drop {α : Type} (cs : List α) (p : Nat) :
    cs.get? p = (cs.drop p).head? := by
  induction cs generalizing p with
  | nil => simp
  | cons c rest ih =>
    cases p with
    | zero => simp
    | succ q => simpa using ih q

theorem drop_cons_succ {α : Type} {cs t : List α} {c : α} {p : Nat} (h : cs.drop p = c :: t) :
    cs.drop (p + 1) = t := by
  have h1 : (cs.drop p).drop 1 = cs.drop (p + 1) := List.drop_drop 1 p cs
  rw [← h1, h]
  rfl

theorem lt_length_of_drop_cons {α : Type} {cs t : List α} {c : α} {p : Nat}
    (h : cs.drop p = c :: t) : p < cs.length := by
  have h2 := congrArg List.length h
  simp [List.length_drop] at h2
  omega

theorem peek_eq_get? {cs : List Char} (h : OneByte cs) {p : Nat} (hp : p ≤ cs.length) :
    peek cs p = some (cs.get? p) := by
  induction cs generalizing p with
  | nil =>
    have hp0 : p = 0 := by simpa using hp
    subst hp0
    rfl
  | cons c rest ih =>
    have hc : c.utf8Size = 1 := h c (by simp)
    cases p with
    | zero => simp [peek, peekBytes]
    | succ q =>
      have h' : OneByte rest := fun x hx => h x (by simp [hx])
      have hq : q ≤ rest.length := by simpa using hp
      have hr := ih h' hq
      simp only [peek, peekBytes, hc] at hr ⊢
      simpa using hr

theorem peek_drop {cs : List Char} (h : OneByte cs) {p : Nat} (hp : p ≤ cs.length) :
    peek cs p = some (cs.drop p).head? := by
  rw [peek_eq_get? h hp, get?_eq_head_drop]

theorem one_byte_drop {cs : List Char} (h : OneByte cs) (p : Nat) : OneByte (cs.drop p) :=
  fun c hc => h c (List.mem_of_mem_drop hc)

theorem one_byte_append {cs cs' : List Char} :
    OneByte (cs ++ cs') ↔ OneByte cs ∧ OneByte cs' := by
  constructor
  · intro h
    exact ⟨fun c hc => h c (by simp [hc]), fun c hc => h c (by simp [hc])⟩
  · rintro ⟨h1, h2⟩ c hc
    rcases List.mem_append.mp hc with hl | hr
    · exact h1 c hl
    · exact h2 c hr

/-! ### The whitespace loop -/

theorem leading_ws_le (rest : List Char) : leading_ws rest ≤ rest.length := by
  induction rest with
  | nil => simp [leading_ws]
  | cons c t ih =>
    by_cases hw : ws_char c <;> simp [leading_ws, hw] <;> omega

theorem cw_spec {cs : List Char} (h : OneByte cs) :
    ∀ fuel p, p ≤ cs.length → leading_ws (cs.drop p) < fuel →
      consume_whitespaceF cs fuel p = some (p + leading_ws (cs.drop p)) := by
  intro fuel
  induction fuel with
  | zero =>
    intro p hp hf
    omega
  | succ n ih =>
    intro p hp hf
    rcases hrest : cs.drop p with _ | ⟨c, t⟩
    · have hpeek : peek cs p = some none := by rw [peek_drop h hp, hrest]; rfl
      simp [consume_whitespaceF, hpeek, hrest, leading_ws]
    · have hpeek : peek cs p = some (some c) := by rw [peek_drop h hp, hrest]; rfl
      by_cases hw : ws_char c
      · have hd : cs.drop (p + 1) = t := drop_cons_succ hrest
        have hp1 : p + 1 ≤ cs.length := lt_length_of_drop_cons hrest
        rw [hrest] at hf
        simp only [leading_ws, hw, if_true] at hf
        have hlt : leading_ws (cs.drop (p + 1)) < n := by rw [hd]; omega
        have hrec := ih (p + 1) hp1 hlt
        rw [hd] at hrec
        simp only [consume_whitespaceF, hpeek, hw, if_true, consume_char, hrec, hrest,
          leading_ws, Option.some.injEq]
        omega
      · simp [consume_whitespaceF, hpeek, hw, hrest, leading_ws]

theorem cw_eq {cs : List Char} (h : OneByte cs) {p : Nat} (hp : p ≤ cs.length) :
    consume_whitespace cs p = some (p + leading_ws (cs.drop p)) := by
  unfold consume_whitespace
  apply cw_spec h _ p hp
  have h1 : leading_ws (cs.drop p) ≤ cs.length - p := by
    have h2 := leading_ws_le (cs.drop p)
    simpa [List.length_drop] using h2
  have h3 := utf8Len_eq_length cs h
  omega

/-! ### The take_while loop -/

theorem take_while_spec {cs : List Char} (h : OneByte cs) (pred : Char → Bool) :
    ∀ (s : List Char) (p : Nat) (rest : List Char), p ≤ cs.length →
      cs.drop p = s ++ rest →
      (∀ c ∈ s, pred c = true) →
      (rest = [] ∨ ∃ c t, rest = c :: t ∧ pred c = false) →
      ∀ fuel, s.length < fuel →
      take_whileF cs pred fuel p = some (s, p + s.length) := by
  intro s
  induction s with
  | nil =>
    intro p rest hp hd hall hsep fuel hf
    obtain ⟨n, rfl⟩ : ∃ n, fuel = n + 1 := ⟨fuel - 1, by omega⟩
    simp only [List.nil_append] at hd
    rcases hsep with rfl | ⟨c, t, rfl, hc⟩
    · have hpeek : peek cs p = some none := by rw [peek_drop h hp, hd]; rfl
      simp [take_whileF, hpeek]
    · have hpeek : peek cs p = some (some c) := by rw [peek_drop h hp, hd]; rfl
      simp [take_whileF, hpeek, hc]
  | cons c s' ih =>
    intro p rest hp hd hall hsep fuel hf
    obtain ⟨n, rfl⟩ : ∃ n, fuel = n + 1 := ⟨fuel - 1, by omega⟩
    have hd' : cs.drop p = c :: (s' ++ rest) := by simpa using hd
    have hpeek : peek cs p = some (some c) := by rw [peek_drop h hp, hd']; rfl
    have hc : pred c = true := hall c (by simp)
    have hp1 : p + 1 ≤ cs.length := lt_length_of_drop_cons hd'
    have hrec := ih (p + 1) rest hp1 (drop_cons_succ hd')
      (fun x hx => hall x (by simp [hx])) hsep n (by simp only [List.length_cons] at hf; omega)
    simp [take_whileF, hpeek, hc, consume_char, hrec]
    omega

theorem take_while_eq {cs : List Char} (h : OneByte cs) (pred : Char → Bool)
    {s : List Char} {p : Nat} {rest : List Char} (hp : p ≤ cs.length)
    (hd : cs.drop p = s ++ rest)
    (hall : ∀ c ∈ s, pred c = true)
    (hsep : rest = [] ∨ ∃ c t, rest = c :: t ∧ pred c = false) :
    take_while cs pred p = some (s, p + s.length) := by
  unfold take_while
  apply take_while_spec h pred s p rest hp hd hall hsep
  have h2 := congrArg List.length hd
  simp [List.length_drop] at h2
  have h3 := utf8Len_eq_length cs h
  omega

/-! ### Character classes -/

theorem char_eq_of_toNat_eq {c d : Char} (h : c.toNat = d.toNat) : c = d :=
  Char.eq_of_val_eq (UInt32.ext (by simpa using h))

theorem char_eq_iff_toNat {c d : Char} : c = d ↔ c.toNat = d.toNat :=
  ⟨fun h => by rw [h], char_eq_of_toNat_eq⟩

theorem symbol_char_toNat {c : Char} (h : is_symbol_character c = true) :
    (0x30 ≤ c.toNat ∧ c.toNat ≤ 0x39) ∨ (0x41 ≤ c.toNat ∧ c.toNat ≤ 0x5a) ∨
    (0x61 ≤ c.toNat ∧ c.toNat ≤ 0x7a) ∨
    c.toNat ∈ ([0x21, 0xa3, 0x24, 0x25, 0x26, 0x2a, 0x2d, 0x5f, 0x3d, 0x2b, 0x3c, 0x3e,
      0x2e, 0x23, 0x7c, 0xac, 0x2f, 0x3f] : List Nat) := by
  simp only [is_symbol_character, Bool.or_eq_true] at h
  rcases h with h | h
  · simp only [rust_is_alphanumeric, Bool.or_eq_true, Bool.and_eq_true,
      decide_eq_true_eq] at h
    tauto
  · right; right; right
    have hm : c ∈ "!£$%&*-_=+<>.#|¬/?".data := by simpa using h
    rcases (by simpa using hm :
        c = '!' ∨ c = '£' ∨ c = '$' ∨ c = '%' ∨ c = '&' ∨ c = '*' ∨ c = '-' ∨ c = '_' ∨
        c = '=' ∨ c = '+' ∨ c = '<' ∨ c = '>' ∨ c = '.' ∨ c = '#' ∨ c = '|' ∨ c = '¬' ∨
        c = '/' ∨ c = '?') with
      rfl | rfl | rfl | rfl | rfl | rfl | rfl | rfl | rfl | rfl | rfl | rfl | rfl | rfl |
      rfl | rfl | rfl | rfl <;> decide

theorem ws_char_iff_toNat {c : Char} : ws_char c = true ↔
    (c.toNat = 0x2c ∨ (c.toNat = 0x09 ∨ c.toNat = 0x0a ∨ c.toNat = 0x0b ∨ c.toNat = 0x0c ∨
      c.toNat = 0x0d ∨ c.toNat = 0x20 ∨ c.toNat = 0x85 ∨ c.toNat = 0xa0 ∨
      c.toNat = 0x1680 ∨ (0x2000 ≤ c.toNat ∧ c.toNat ≤ 0x200a) ∨
      c.toNat = 0x2028 ∨ c.toNat = 0x2029 ∨ c.toNat = 0x202f ∨
      c.toNat = 0x205f ∨ c.toNat = 0x3000)) := by
  simp only [ws_char, rust_is_whitespace, char_eq_iff_toNat, Bool.or_eq_true,
    Bool.and_eq_true, decide_eq_true_eq, show (',').toNat = 0x2c from by decide]
  tauto

theorem symbol_char_not_ws {c : Char} (h : is_symbol_character c = true) :
    ws_char c = false := by
  rw [Bool.eq_false_iff]
  intro hw
  rw [ws_char_iff_toNat] at hw
  rcases symbol_char_toNat h with ⟨h1, h2⟩ | ⟨h1, h2⟩ | ⟨h1, h2⟩ | hm
  · omega
  · omega
  · omega
  · simp at hm
    omega

theorem symbol_char_ne {c : Char} (h : is_symbol_character c = true) :
    c ≠ ';' ∧ c ≠ '(' ∧ c ≠ ')' ∧ c ≠ '[' ∧ c ≠ ']' ∧ c ≠ '\x7b' ∧ c ≠ '\x7d' ∧
    c ≠ '\'' ∧ c ≠ '`' ∧ c ≠ '~' ∧ c ≠ '@' ∧ c ≠ '^' ∧ c ≠ ':' ∧ c ≠ '"' := by
  refine ⟨?_, ?_, ?_, ?_, ?_, ?_, ?_, ?_, ?_, ?_, ?_, ?_, ?_, ?_⟩ <;>
    (intro he; rw [he] at h; exact absurd h (by decide))

theorem alnum_is_symbol {c : Char} (h : rust_is_alphanumeric c = true) :
    is_symbol_character c = true := by
  simp [is_symbol_character, h]

theorem utf8Size_one_of_toNat_le {c : Char} (h : c.toNat ≤ 127) : c.utf8Size = 1 := by
  have hlt : c.val ≤ 0x7f := by
    show c.val.toNat ≤ (0x7f : UInt32).toNat
    simpa using h
  simp [Char.utf8Size, hlt]

theorem alnum_utf8Size {c : Char} (h : rust_is_alphanumeric c = true) : c.utf8Size = 1 := by
  simp only [rust_is_alphanumeric, Bool.or_eq_true, Bool.and_eq_true, decide_eq_true_eq] at h
  exact utf8Size_one_of_toNat_le (by omega)

theorem alnum_not_ws {c : Char} (h : rust_is_alphanumeric c = true) : ws_char c = false :=
  symbol_char_not_ws (alnum_is_symbol h)

theorem digit_is_alnum {c : Char} (h : is_ascii_digit c = true) :
    rust_is_alphanumeric c = true := by
  simp only [is_ascii_digit, Bool.and_eq_true, decide_eq_true_eq] at h
  simp only [rust_is_alphanumeric, Bool.or_eq_true, Bool.and_eq_true, decide_eq_true_eq]
  omega

theorem digit_or_minus_facts {c : Char} (h : is_ascii_digit c = true ∨ c = '-') :
    is_symbol_character c = true ∧ c.utf8Size = 1 ∧ c ≠ '+' := by
  rcases h with h | rfl
  · refine ⟨alnum_is_symbol (digit_is_alnum h), alnum_utf8Size (digit_is_alnum h), ?_⟩
    intro he
    rw [he] at h
    exact absurd h (by decide)
  · exact ⟨by decide, by decide, by decide⟩

/-! ### Decimal digits and parse_i32 -/

theorem digitsToNatAux_append (acc : Nat) (l : List Char) (c : Char) :
    digitsToNatAux acc (l ++ [c]) = digitsToNatAux acc l * 10 + (c.toNat - 0x30) := by
  induction l generalizing acc with
  | nil => rfl
  | cons d t ih =>
    show digitsToNatAux (acc * 10 + (d.toNat - 0x30)) (t ++ [c]) = _
    rw [ih]
    rfl

theorem digitChar_spec {m : Nat} (h : m < 10) :
    is_ascii_digit (Nat.digitChar m) = true ∧ (Nat.digitChar m).toNat - 0x30 = m := by
  interval_cases m <;> exact ⟨by decide, by decide⟩

theorem nat_digits_spec : ∀ fuel m, m < fuel →
    (∀ c ∈ nat_digits_rev_f fuel m, is_ascii_digit c = true) ∧
    nat_digits_rev_f fuel m ≠ [] ∧
    digitsToNatAux 0 (nat_digits_rev_f fuel m).reverse = m := by
  intro fuel
  induction fuel with
  | zero => intro m hm; omega
  | succ n ih =>
    intro m hm
    by_cases h10 : m < 10
    · refine ⟨?_, ?_, ?_⟩
      · intro c hc
        simp [nat_digits_rev_f, h10] at hc
        rw [hc]
        exact (digitChar_spec h10).1
      · simp [nat_digits_rev_f, h10]
      · have he : nat_digits_rev_f (n + 1) m = [Nat.digitChar m] := by
          simp [nat_digits_rev_f, h10]
        rw [he]
        show 0 * 10 + ((Nat.digitChar m).toNat - 0x30) = m
        have h2 := (digitChar_spec h10).2
        omega
    · have hdiv : m / 10 < n := by
        have h1 : m / 10 < m := Nat.div_lt_self (by omega) (by omega)
        omega
      obtain ⟨iha, ihb, ihc⟩ := ih (m / 10) hdiv
      have hmod : m % 10 < 10 := Nat.mod_lt m (by omega)
      refine ⟨?_, ?_, ?_⟩
      · intro c hc
        simp only [nat_digits_rev_f, if_neg h10, List.mem_cons] at hc
        rcases hc with rfl | hc
        · exact (digitChar_spec hmod).1
        · exact iha c hc
      · simp [nat_digits_rev_f, h10]
      · simp only [nat_digits_rev_f, if_neg h10, List.reverse_cons]
        rw [digitsToNatAux_append, ihc, (digitChar_spec hmod).2]
        omega

theorem mk_ne_names {l : List Char} (h : ∀ c ∈ l, is_ascii_digit c = true ∨ c = '-') :
    String.mk l ≠ "nil" ∧ String.mk l ≠ "true" ∧ String.mk l ≠ "false" := by
  refine ⟨fun he => ?_, fun he => ?_, fun he => ?_⟩
  · have hd : l = ['n', 'i', 'l'] := congrArg String.data he
    rcases h 'n' (by rw [hd]; simp) with hx | hx <;> exact absurd hx (by decide)
  · have hd : l = ['t', 'r', 'u', 'e'] := congrArg String.data he
    rcases h 't' (by rw [hd]; simp) with hx | hx <;> exact absurd hx (by decide)
  · have hd : l = ['f', 'a', 'l', 's', 'e'] := congrArg String.data he
    rcases h 'f' (by rw [hd]; simp) with hx | hx <;> exact absurd hx (by decide)

theorem int_chars_facts {n : Int} (h1 : -(2 ^ 31) ≤ n) (h2 : n < 2 ^ 31) :
    (∀ c ∈ int_chars n, is_ascii_digit c = true ∨ c = '-') ∧
    int_chars n ≠ [] ∧
    parse_i32 (int_chars n) = some n := by
  by_cases hneg : n < 0
  · obtain ⟨da, db, dc⟩ := nat_digits_spec ((-n).toNat + 1) (-n).toNat (Nat.lt_succ_self _)
    have hrev : ∀ c ∈ (nat_digits_rev_f ((-n).toNat + 1) (-n).toNat).reverse,
        is_ascii_digit c = true := fun c hc => da c (List.mem_reverse.mp hc)
    have hic : int_chars n = '-' :: (nat_digits_rev_f ((-n).toNat + 1) (-n).toNat).reverse := by
      simp [int_chars, hneg]
    refine ⟨?_, ?_, ?_⟩
    · intro c hc
      rw [hic] at hc
      rcases List.mem_cons.mp hc with rfl | hc
      · exact Or.inr rfl
      · exact Or.inl (hrev c hc)
    · rw [hic]
      simp
    · rw [hic]
      have hcond : (decide ((nat_digits_rev_f ((-n).toNat + 1) (-n).toNat).reverse ≠ []) &&
          (nat_digits_rev_f ((-n).toNat + 1) (-n).toNat).reverse.all is_ascii_digit) = true := by
        simp only [Bool.and_eq_true, decide_eq_true_eq, List.all_eq_true]
        exact ⟨by simpa using db, hrev⟩
      simp only [parse_i32, if_neg (show ¬('-' = '+') from by decide),
        if_pos (show ('-' : Char) = '-' from rfl), hcond, if_true, dc,
        if_pos (show (-n).toNat ≤ 2 ^ 31 from by omega)]
      congr 1
      omega
  · obtain ⟨da, db, dc⟩ := nat_digits_spec (n.toNat + 1) n.toNat (Nat.lt_succ_self _)
    have hrev : ∀ c ∈ (nat_digits_rev_f (n.toNat + 1) n.toNat).reverse,
        is_ascii_digit c = true := fun c hc => da c (List.mem_reverse.mp hc)
    have hic : int_chars n = (nat_digits_rev_f (n.toNat + 1) n.toNat).reverse := by
      simp [int_chars, hneg]
    refine ⟨?_, ?_, ?_⟩
    · intro c hc
      rw [hic] at hc
      exact Or.inl (hrev c hc)
    · rw [hic]
      simpa using db
    · rw [hic]
      rcases hrd : (nat_digits_rev_f (n.toNat + 1) n.toNat).reverse with _ | ⟨d, t⟩
      · exact absurd (by simpa using hrd) db
      · have hd : is_ascii_digit d = true := hrev d (by rw [hrd]; simp)
        have hdp : ¬(d = '+') := (digit_or_minus_facts (Or.inl hd)).2.2
        have hdm : ¬(d = '-') := by
          intro he
          rw [he] at hd
          exact absurd hd (by decide)
        have hall : (d :: t).all is_ascii_digit = true := by
          rw [List.all_eq_true]
          intro c hc
          exact hrev c (by rw [hrd]; exact hc)
        rw [hrd] at dc
        simp only [parse_i32, if_neg hdp, if_neg hdm, hall, if_true, dc,
          if_pos (show n.toNat ≤ 2 ^ 31 - 1 from by omega)]
        rw [Int.toNat_of_nonneg (by omega)]

/-! ### String escapes and the string-literal loop -/

theorem mem_escape_string_char {c x : Char} (h : x ∈ escape_string_char c) :
    x = c ∨ x = '\\' ∨ x = 'n' ∨ x = '"' := by
  unfold escape_string_char at h
  by_cases h1 : c = '"'
  · rw [if_pos h1] at h
    simp at h
    tauto
  · rw [if_neg h1] at h
    by_cases h2 : c = '\\'
    · rw [if_pos h2] at h
      simp at h
      tauto
    · rw [if_neg h2] at h
      by_cases h3 : c = '\n'
      · rw [if_pos h3] at h
        simp at h
        tauto
      · rw [if_neg h3] at h
        simp at h
        tauto

theorem escape_chars_one_byte {s : List Char} (h : ∀ c ∈ s, c.utf8Size = 1) :
    ∀ x ∈ escape_chars s, x.utf8Size = 1 := by
  induction s with
  | nil =>
    intro x hx
    simp [escape_chars] at hx
  | cons c t ih =>
    intro x hx
    simp only [escape_chars, List.mem_append] at hx
    rcases hx with hx | hx
    · rcases mem_escape_string_char hx with rfl | rfl | rfl | rfl
      · exact h x (by simp)
      · decide
      · decide
      · decide
    · exact ih (fun y hy => h y (by simp [hy])) x hx

theorem psl_spec {cs : List Char} (h : OneByte cs) :
    ∀ (s : List Char) (p : Nat) (rest acc : List Char), p ≤ cs.length →
      cs.drop p = escape_chars s ++ '"' :: rest →
      ∀ fuel, (escape_chars s).length < fuel →
      parse_string_loopF cs fuel p acc false =
        some (.ok (acc ++ s, p + (escape_chars s).length)) := by
  intro s
  induction s with
  | nil =>
    intro p rest acc hp hd fuel hf
    obtain ⟨n, rfl⟩ : ∃ n, fuel = n + 1 := ⟨fuel - 1, by omega⟩
    simp only [escape_chars, List.nil_append] at hd ⊢
    have hpeek : peek cs p = some (some '"') := by rw [peek_drop h hp, hd]; rfl
    simp [parse_string_loopF, hpeek]
  | cons c s' ih =>
    intro p rest acc hp hd fuel hf
    have hlen : (escape_chars (c :: s')).length =
        (escape_string_char c).length + (escape_chars s').length := by
      simp [escape_chars]
    by_cases h1 : c = '"'
    · subst h1
      have hd1 : cs.drop p = '\\' :: ('"' :: (escape_chars s' ++ '"' :: rest)) := by
        rw [hd]
        simp [escape_chars, escape_string_char]
      rw [show (escape_string_char '"').length = 2 from rfl] at hlen
      obtain ⟨m, rfl⟩ : ∃ m, fuel = m + 1 + 1 := ⟨fuel - 2, by omega⟩
      have hpeek1 : peek cs p = some (some '\\') := by rw [peek_drop h hp, hd1]; rfl
      have hp1 : p + 1 ≤ cs.length := lt_length_of_drop_cons hd1
      have hd2 : cs.drop (p + 1) = '"' :: (escape_chars s' ++ '"' :: rest) :=
        drop_cons_succ hd1
      have hpeek2 : peek cs (p + 1) = some (some '"') := by rw [peek_drop h hp1, hd2]; rfl
      have hp2 : p + 2 ≤ cs.length := lt_length_of_drop_cons hd2
      have hd3 : cs.drop (p + 2) = escape_chars s' ++ '"' :: rest := by
        have := drop_cons_succ hd2
        simpa [Nat.add_assoc] using this
      have hrec := ih (p + 2) rest (acc ++ ['"']) hp2 hd3 m (by omega)
      simp [parse_string_loopF, hpeek1, hpeek2, consume_char, hrec,
        show p + 1 + 1 = p + 2 from rfl]
      omega
    · by_cases h2 : c = '\\'
      · subst h2
        have hd1 : cs.drop p = '\\' :: ('\\' :: (escape_chars s' ++ '"' :: rest)) := by
          rw [hd]
          simp [escape_chars, escape_string_char]
        rw [show (escape_string_char '\\').length = 2 from rfl] at hlen
        obtain ⟨m, rfl⟩ : ∃ m, fuel = m + 1 + 1 := ⟨fuel - 2, by omega⟩
        have hpeek1 : peek cs p = some (some '\\') := by rw [peek_drop h hp, hd1]; rfl
        have hp1 : p + 1 ≤ cs.length := lt_length_of_drop_cons hd1
        have hd2 : cs.drop (p + 1) = '\\' :: (escape_chars s' ++ '"' :: rest) :=
          drop_cons_succ hd1
        have hpeek2 : peek cs (p + 1) = some (some '\\') := by rw [peek_drop h hp1, hd2]; rfl
        have hp2 : p + 2 ≤ cs.length := lt_length_of_drop_cons hd2
        have hd3 : cs.drop (p + 2) = escape_chars s' ++ '"' :: rest := by
          have := drop_cons_succ hd2
          simpa [Nat.add_assoc] using this
        have hrec := ih (p + 2) rest (acc ++ ['\\']) hp2 hd3 m (by omega)
        simp [parse_string_loopF, hpeek1, hpeek2, consume_char, hrec,
          show p + 1 + 1 = p + 2 from rfl]
        omega
      · by_cases h3 : c = '\n'
        · subst h3
          have hd1 : cs.drop p = '\\' :: ('n' :: (escape_chars s' ++ '"' :: rest)) := by
            rw [hd]
            simp [escape_chars, escape_string_char]
          rw [show (escape_string_char '\n').length = 2 from rfl] at hlen
          obtain ⟨m, rfl⟩ : ∃ m, fuel = m + 1 + 1 := ⟨fuel - 2, by omega⟩
          have hpeek1 : peek cs p = some (some '\\') := by rw [peek_drop h hp, hd1]; rfl
          have hp1 : p + 1 ≤ cs.length := lt_length_of_drop_cons hd1
          have hd2 : cs.drop (p + 1) = 'n' :: (escape_chars s' ++ '"' :: rest) :=
            drop_cons_succ hd1
          have hpeek2 : peek cs (p + 1) = some (some 'n') := by rw [peek_drop h hp1, hd2]; rfl
          have hp2 : p + 2 ≤ cs.length := lt_length_of_drop_cons hd2
          have hd3 : cs.drop (p + 2) = escape_chars s' ++ '"' :: rest := by
            have := drop_cons_succ hd2
            simpa [Nat.add_assoc] using this
          have hrec := ih (p + 2) rest (acc ++ ['\n']) hp2 hd3 m (by omega)
          simp [parse_string_loopF, hpeek1, hpeek2, consume_char, hrec,
            show p + 1 + 1 = p + 2 from rfl]
          omega
        · have hd1 : cs.drop p = c :: (escape_chars s' ++ '"' :: rest) := by
            rw [hd]
            simp [escape_chars, escape_string_char, h1, h2, h3]
          have hlen1 : (escape_string_char c).length = 1 := by
            simp [escape_string_char, h1, h2, h3]
          rw [hlen1] at hlen
          obtain ⟨m, rfl⟩ : ∃ m, fuel = m + 1 := ⟨fuel - 1, by omega⟩
          have hpeek1 : peek cs p = some (some c) := by rw [peek_drop h hp, hd1]; rfl
          have hp1 : p + 1 ≤ cs.length := lt_length_of_drop_cons hd1
          have hd2 : cs.drop (p + 1) = escape_chars s' ++ '"' :: rest :=
            drop_cons_succ hd1
          have hrec := ih (p + 1) rest (acc ++ [c]) hp1 hd2 m (by omega)
          simp [parse_string_loopF, hpeek1, consume_char, hrec, h1, h2, h3]
          omega

/-! ### Token production -/

theorem cw_zero {cs : List Char} (h : OneByte cs) {p : Nat} (hp : p ≤ cs.length)
    (hz : leading_ws (cs.drop p) = 0) : consume_whitespace cs p = some p := by
  rw [cw_eq h hp, hz]
  rfl

theorem leading_ws_zero {cs rest : List Char} {c : Char} {p : Nat}
    (hd : cs.drop p = c :: rest) (hw : ws_char c = false) : leading_ws (cs.drop p) = 0 := by
  rw [hd]
  simp [leading_ws, hw]

theorem drop_add {α : Type} (cs : List α) (p k : Nat) : cs.drop (p + k) = (cs.drop p).drop k :=
  (List.drop_drop k p cs).symm

theorem emits_lparen {cs : List Char} (h : OneByte cs) {p : Nat} {rest : List Char}
    (hd : cs.drop p = '(' :: rest) : emits cs p .LParen (p + 1) := by
  have hp : p ≤ cs.length := le_of_lt (lt_length_of_drop_cons hd)
  have hcw : consume_whitespace cs p = some p :=
    cw_zero h hp (leading_ws_zero hd (by decide))
  have hpeek : peek cs p = some (some '(') := by rw [peek_drop h hp, hd]; rfl
  unfold emits parse_token
  rw [hcw]
  simp [hpeek, consume_char]

theorem emits_rparen {cs : List Char} (h : OneByte cs) {p : Nat} {rest : List Char}
    (hd : cs.drop p = ')' :: rest) : emits cs p .RParen (p + 1) := by
  have hp : p ≤ cs.length := le_of_lt (lt_length_of_drop_cons hd)
  have hcw : consume_whitespace cs p = some p :=
    cw_zero h hp (leading_ws_zero hd (by decide))
  have hpeek : peek cs p = some (some ')') := by rw [peek_drop h hp, hd]; rfl
  unfold emits parse_token
  rw [hcw]
  simp [hpeek, consume_char]

theorem emits_lbracket {cs : List Char} (h : OneByte cs) {p : Nat} {rest : List Char}
    (hd : cs.drop p = '[' :: rest) : emits cs p .LBracket (p + 1) := by
  have hp : p ≤ cs.length := le_of_lt (lt_length_of_drop_cons hd)
  have hcw : consume_whitespace cs p = some p :=
    cw_zero h hp (leading_ws_zero hd (by decide))
  have hpeek : peek cs p = some (some '[') := by rw [peek_drop h hp, hd]; rfl
  unfold emits parse_token
  rw [hcw]
  simp [hpeek, consume_char]

theorem emits_rbracket {cs : List Char} (h : OneByte cs) {p : Nat} {rest : List Char}
    (hd : cs.drop p = ']' :: rest) : emits cs p .RBracket (p + 1) := by
  have hp : p ≤ cs.length := le_of_lt (lt_length_of_drop_cons hd)
  have hcw : consume_whitespace cs p = some p :=
    cw_zero h hp (leading_ws_zero hd (by decide))
  have hpeek : peek cs p = some (some ']') := by rw [peek_drop h hp, hd]; rfl
  unfold emits parse_token
  rw [hcw]
  simp [hpeek, consume_char]

theorem emits_symbol {cs : List Char} (h : OneByte cs) {p : Nat} {s rest : List Char}
    (hd : cs.drop p = s ++ rest)
    (hne : s ≠ [])
    (hall : ∀ c ∈ s, is_symbol_character c = true)
    (hsep : rest = [] ∨ ∃ c t, rest = c :: t ∧ is_symbol_character c = false)
    (hnil : ¬(String.mk s = "nil")) (htrue : ¬(String.mk s = "true"))
    (hfalse : ¬(String.mk s = "false"))
    (hint : parse_i32 s = none) :
    emits cs p (.Symbol (String.mk s)) (p + s.length) := by
  obtain ⟨c0, s', rfl⟩ : ∃ c0 s', s = c0 :: s' := by
    cases s with
    | nil => exact absurd rfl hne
    | cons a b => exact ⟨a, b, rfl⟩
  have hd' : cs.drop p = c0 :: (s' ++ rest) := by simpa using hd
  have hp : p ≤ cs.length := le_of_lt (lt_length_of_drop_cons hd')
  have hc0 : is_symbol_character c0 = true := hall c0 (by simp)
  have hcw : consume_whitespace cs p = some p :=
    cw_zero h hp (leading_ws_zero hd' (symbol_char_not_ws hc0))
  have hpeek : peek cs p = some (some c0) := by rw [peek_drop h hp, hd']; rfl
  have htw : take_while cs is_symbol_character p = some (c0 :: s', p + (c0 :: s').length) :=
    take_while_eq h _ hp hd hall hsep
  obtain ⟨hn1, hn2, hn3, hn4, hn5, hn6, hn7, hn8, hn9, hn10, hn11, hn12, hn13, hn14⟩ :=
    symbol_char_ne hc0
  unfold emits parse_token
  rw [hcw]
  simp [hpeek, hn1, hn2, hn3, hn4, hn5, hn6, hn7, hn8, hn9, hn10, hn11, hn12, hn13, hn14,
    hc0, parse_bare_sequence, htw, hnil, htrue, hfalse, hint]

theorem emits_int {cs : List Char} (h : OneByte cs) {p : Nat} {rest : List Char} {n : Int}
    (h1 : -(2 ^ 31) ≤ n) (h2 : n < 2 ^ 31)
    (hd : cs.drop p = int_chars n ++ rest)
    (hsep : rest = [] ∨ ∃ c t, rest = c :: t ∧ is_symbol_character c = false) :
    emits cs p (.Int n) (p + (int_chars n).length) := by
  obtain ⟨ha, hb, hc⟩ := int_chars_facts h1 h2
  have hall : ∀ c ∈ int_chars n, is_symbol_character c = true :=
    fun c hcm => (digit_or_minus_facts (ha c hcm)).1
  obtain ⟨hm1, hm2, hm3⟩ := mk_ne_names ha
  obtain ⟨c0, s', he⟩ : ∃ c0 s', int_chars n = c0 :: s' := by
    rcases hx : int_chars n with _ | ⟨a, b⟩
    · exact absurd hx hb
    · exact ⟨a, b, rfl⟩
  rw [he] at hd hc hall hm1 hm2 hm3 ⊢
  have hd' : cs.drop p = c0 :: (s' ++ rest) := by simpa using hd
  have hp : p ≤ cs.length := le_of_lt (lt_length_of_drop_cons hd')
  have hc0 : is_symbol_character c0 = true := hall c0 (by simp)
  have hcw : consume_whitespace cs p = some p :=
    cw_zero h hp (leading_ws_zero hd' (symbol_char_not_ws hc0))
  have hpeek : peek cs p = some (some c0) := by rw [peek_drop h hp, hd']; rfl
  have htw : take_while cs is_symbol_character p = some (c0 :: s', p + (c0 :: s').length) :=
    take_while_eq h _ hp hd hall hsep
  obtain ⟨hn1, hn2, hn3, hn4, hn5, hn6, hn7, hn8, hn9, hn10, hn11, hn12, hn13, hn14⟩ :=
    symbol_char_ne hc0
  unfold emits parse_token
  rw [hcw]
  simp [hpeek, hn1, hn2, hn3, hn4, hn5, hn6, hn7, hn8, hn9, hn10, hn11, hn12, hn13, hn14,
    hc0, parse_bare_sequence, htw, hm1, hm2, hm3, hc]

theorem emits_nil {cs : List Char} (h : OneByte cs) {p : Nat} {rest : List Char}
    (hd : cs.drop p = 'n' :: 'i' :: 'l' :: rest)
    (hsep : rest = [] ∨ ∃ c t, rest = c :: t ∧ is_symbol_character c = false) :
    emits cs p .Nil (p + 3) := by
  have hd2 : cs.drop p = ['n', 'i', 'l'] ++ rest := by simpa using hd
  have hp : p ≤ cs.length := le_of_lt (lt_length_of_drop_cons hd)
  have hc0 : is_symbol_character 'n' = true := by decide
  have hcw : consume_whitespace cs p = some p :=
    cw_zero h hp (leading_ws_zero hd (by decide))
  have hpeek : peek cs p = some (some 'n') := by rw [peek_drop h hp, hd]; rfl
  have htw : take_while cs is_symbol_character p = some (['n', 'i', 'l'], p + 3) :=
    take_while_eq h _ hp hd2 (by decide) hsep
  unfold emits parse_token
  rw [hcw]
  simp [hpeek, parse_bare_sequence, htw, hc0]

theorem emits_true {cs : List Char} (h : OneByte cs) {p : Nat} {rest : List Char}
    (hd : cs.drop p = 't' :: 'r' :: 'u' :: 'e' :: rest)
    (hsep : rest = [] ∨ ∃ c t, rest = c :: t ∧ is_symbol_character c = false) :
    emits cs p .True (p + 4) := by
  have hd2 : cs.drop p = ['t', 'r', 'u', 'e'] ++ rest := by simpa using hd
  have hp : p ≤ cs.length := le_of_lt (lt_length_of_drop_cons hd)
  have hcw : consume_whitespace cs p = some p :=
    cw_zero h hp (leading_ws_zero hd (by decide))
  have hc0 : is_symbol_character 't' = true := by decide
  have hpeek : peek cs p = some (some 't') := by rw [peek_drop h hp, hd]; rfl
  have htw : take_while cs is_symbol_character p = some (['t', 'r', 'u', 'e'], p + 4) :=
    take_while_eq h _ hp hd2 (by decide) hsep
  unfold emits parse_token
  rw [hcw]
  simp [hpeek, parse_bare_sequence, htw, hc0]

theorem emits_false {cs : List Char} (h : OneByte cs) {p : Nat} {rest : List Char}
    (hd : cs.drop p = 'f' :: 'a' :: 'l' :: 's' :: 'e' :: rest)
    (hsep : rest = [] ∨ ∃ c t, rest = c :: t ∧ is_symbol_character c = false) :
    emits cs p .False (p + 5) := by
  have hd2 : cs.drop p = ['f', 'a', 'l', 's', 'e'] ++ rest := by simpa using hd
  have hp : p ≤ cs.length := le_of_lt (lt_length_of_drop_cons hd)
  have hcw : consume_whitespace cs p = some p :=
    cw_zero h hp (leading_ws_zero hd (by decide))
  have hc0 : is_symbol_character 'f' = true := by decide
  have hpeek : peek cs p = some (some 'f') := by rw [peek_drop h hp, hd]; rfl
  have htw : take_while cs is_symbol_character p = some (['f', 'a', 'l', 's', 'e'], p + 5) :=
    take_while_eq h _ hp hd2 (by decide) hsep
  unfold emits parse_token
  rw [hcw]
  simp [hpeek, parse_bare_sequence, htw, hc0]

theorem emits_keyword {cs : List Char} (h : OneByte cs) {p : Nat} {s rest : List Char}
    (hd : cs.drop p = ':' :: (s ++ rest))
    (hall : ∀ c ∈ s, rust_is_alphanumeric c = true)
    (hsep : rest = [] ∨ ∃ c t, rest = c :: t ∧ rust_is_alphanumeric c = false) :
    emits cs p (.Keyword (String.mk s)) (p + 1 + s.length) := by
  have hp : p ≤ cs.length := le_of_lt (lt_length_of_drop_cons hd)
  have hp1 : p + 1 ≤ cs.length := lt_length_of_drop_cons hd
  have hcw : consume_whitespace cs p = some p :=
    cw_zero h hp (leading_ws_zero hd (by decide))
  have hpeek : peek cs p = some (some ':') := by rw [peek_drop h hp, hd]; rfl
  have hd1 : cs.drop (p + 1) = s ++ rest := drop_cons_succ hd
  have htw : take_while cs rust_is_alphanumeric (p + 1) = some (s, p + 1 + s.length) :=
    take_while_eq h _ hp1 hd1 hall hsep
  unfold emits parse_token
  rw [hcw]
  simp [hpeek, parse_keyword, expect_char, consume_char, htw]

theorem emits_string {cs : List Char} (h : OneByte cs) {p : Nat} {s rest : List Char}
    (hd : cs.drop p = '"' :: (escape_chars s ++ '"' :: rest)) :
    emits cs p (.String (String.mk s)) (p + 1 + (escape_chars s).length + 1) := by
  have hp : p ≤ cs.length := le_of_lt (lt_length_of_drop_cons hd)
  have hp1 : p + 1 ≤ cs.length := lt_length_of_drop_cons hd
  have hcw : consume_whitespace cs p = some p :=
    cw_zero h hp (leading_ws_zero hd (by decide))
  have hpeek : peek cs p = some (some '"') := by rw [peek_drop h hp, hd]; rfl
  have hd1 : cs.drop (p + 1) = escape_chars s ++ '"' :: rest := drop_cons_succ hd
  have hlenb : (escape_chars s).length + 1 + rest.length = cs.length - (p + 1) := by
    have h2 := congrArg List.length hd1
    simp [List.length_drop] at h2
    omega
  have hloop := psl_spec h s (p + 1) rest [] hp1 hd1 (utf8Len cs + 1)
    (by rw [utf8Len_eq_length cs h]; omega)
  have hd2 : cs.drop (p + 1 + (escape_chars s).length) = '"' :: rest := by
    rw [drop_add, hd1, List.drop_left]
  have hq : p + 1 + (escape_chars s).length ≤ cs.length :=
    le_of_lt (lt_length_of_drop_cons hd2)
  have hpeek2 : peek cs (p + 1 + (escape_chars s).length) = some (some '"') := by
    rw [peek_drop h hq, hd2]; rfl
  unfold emits parse_token
  rw [hcw]
  simp [hpeek, parse_string, expect_char, consume_char, hpeek2, hloop]

theorem emits_ws_skip {cs : List Char} (h : OneByte cs) {p : Nat} {c : Char}
    {t : List Char} {tok : Token} {q : Nat}
    (hd : cs.drop p = c :: t) (hw : ws_char c = true)
    (he : emits cs (p + 1) tok q) : emits cs p tok q := by
  have hp : p ≤ cs.length := le_of_lt (lt_length_of_drop_cons hd)
  have hp1 : p + 1 ≤ cs.length := lt_length_of_drop_cons hd
  have hL : leading_ws (cs.drop p) = leading_ws (cs.drop (p + 1)) + 1 := by
    rw [hd, drop_cons_succ hd]
    simp [leading_ws, hw]
  have hcw : consume_whitespace cs p = consume_whitespace cs (p + 1) := by
    rw [cw_eq h hp, cw_eq h hp1, hL]
    congr 1
    omega
  unfold emits parse_token at he ⊢
  rw [hcw]
  exact he

/-! ### The tokenizer loop -/

theorem parse_token_end {cs : List Char} (h : OneByte cs) {p : Nat} (hp : p ≤ cs.length)
    (hend : cs.drop (p + leading_ws (cs.drop p)) = []) :
    parse_token cs p = some (.ok (none, p + leading_ws (cs.drop p))) := by
  have hq : p + leading_ws (cs.drop p) ≤ cs.length := by
    have h1 := leading_ws_le (cs.drop p)
    simp [List.length_drop] at h1
    omega
  have hpeek : peek cs (p + leading_ws (cs.drop p)) = some none := by
    rw [peek_drop h hq, hend]
    rfl
  unfold parse_token
  rw [cw_eq h hp]
  simp [hpeek]

theorem tok_seq_append {cs : List Char} {p : Nat} {ts : List Token} {q : Nat}
    (h1 : tok_seq cs p ts q) {ts' : List Token} {r : Nat}
    (h2 : tok_seq cs q ts' r) : tok_seq cs p (ts ++ ts') r := by
  induction h1 with
  | nil => simpa using h2
  | cons p t q ts r he hlt _ ih => exact tok_seq.cons _ _ _ _ _ he hlt (ih h2)

theorem tok_seq_single {cs : List Char} {p : Nat} {t : Token} {q : Nat}
    (he : emits cs p t q) (hlt : p < q) : tok_seq cs p [t] q :=
  tok_seq.cons _ _ _ _ _ he hlt (tok_seq.nil q)

theorem tok_seq_skip_ws {cs : List Char} (h : OneByte cs) {p : Nat} {c : Char}
    {u : List Char} {t : Token} {ts : List Token} {r : Nat}
    (hd : cs.drop p = c :: u) (hw : ws_char c = true)
    (hseq : tok_seq cs (p + 1) (t :: ts) r) : tok_seq cs p (t :: ts) r := by
  rcases hseq with _ | ⟨_, _, q, _, _, he, hlt, hrest⟩
  exact tok_seq.cons _ _ _ _ _ (emits_ws_skip h hd hw he) (by omega) hrest

theorem tok_seq_bound {cs : List Char} {p : Nat} {ts : List Token} {q : Nat}
    (h : tok_seq cs p ts q) : ts.length + p ≤ q := by
  induction h with
  | nil => simp
  | cons p t q ts r he hlt _ ih => simp; omega

theorem tokenizeF_of_tok_seq {cs : List Char} {p : Nat} {ts : List Token} {q : Nat}
    (hseq : tok_seq cs p ts q)
    (hend : parse_token cs q = some (.ok (none, q + leading_ws (cs.drop q)))) :
    ∀ fuel, ts.length < fuel → tokenizeF cs fuel p = some (.ok ts) := by
  induction hseq with
  | nil p =>
    intro fuel hf
    obtain ⟨n, rfl⟩ : ∃ n, fuel = n + 1 := ⟨fuel - 1, by omega⟩
    simp [tokenizeF, hend]
  | cons p t q ts r he hlt hrest ih =>
    intro fuel hf
    obtain ⟨n, rfl⟩ : ∃ n, fuel = n + 1 := ⟨fuel - 1, by omega⟩
    have hr := ih hend n (by simp at hf; omega)
    unfold emits at he
    simp [tokenizeF, he, hr]

/-! ### Readable values: their printed form is single-byte and re-tokenizes -/

theorem mk_data_eq (s : String) : String.mk s.data = s := rfl

theorem symbol_readable_spec {s : String} (h : symbol_readable s = true) :
    s.data ≠ [] ∧ (∀ c ∈ s.data, is_symbol_character c = true ∧ c.utf8Size = 1) ∧
    ¬(s = "nil") ∧ ¬(s = "true") ∧ ¬(s = "false") ∧
    parse_i32 s.data = none := by
  simp only [symbol_readable, Bool.and_eq_true, Bool.not_eq_true', beq_eq_false_iff_ne,
    ne_eq, List.all_eq_true, beq_iff_eq, Option.isNone_iff_eq_none] at h
  obtain ⟨⟨⟨⟨⟨h1, h2⟩, h3⟩, h4⟩, h5⟩, h6⟩ := h
  refine ⟨?_, ?_, h3, h4, h5, h6⟩
  · intro he
    rw [he] at h1
    exact absurd h1 (by decide)
  · intro c hc
    have := h2 c hc
    simpa using this

theorem keyword_readable_spec {s : String} (h : keyword_readable s = true) :
    ∀ c ∈ s.data, rust_is_alphanumeric c = true := by
  simpa [keyword_readable, List.all_eq_true] using h

theorem string_readable_spec {s : String} (h : string_readable s = true) :
    ∀ c ∈ s.data, c.utf8Size = 1 := by
  intro c hc
  simp only [string_readable, List.all_eq_true] at h
  simpa using h c hc

theorem int_readable_spec {n : Int} (h : atom_readable (.Int n) = true) :
    -(2 ^ 31) ≤ n ∧ n < 2 ^ 31 := by
  simpa [atom_readable] using h

theorem values_readable_iff {items : List Value} :
    values_readable items = true ↔ ∀ v ∈ items, value_readable v = true := by
  induction items with
  | nil => simp [values_readable]
  | cons v rest ih =>
    simp [values_readable, Bool.and_eq_true, ih]

theorem sizeOf_mem_list {v : Value} {items : List Value} (h : v ∈ items) :
    sizeOf v < sizeOf (Value.List items) := by
  have h1 := List.sizeOf_lt_of_mem h
  simp only [Value.List.sizeOf_spec]
  omega

theorem sizeOf_mem_vector {v : Value} {items : List Value} (h : v ∈ items) :
    sizeOf v < sizeOf (Value.Vector items) := by
  have h1 := List.sizeOf_lt_of_mem h
  simp only [Value.Vector.sizeOf_spec]
  omega

theorem pr_atom_one_byte {a : Atom} (hr : atom_readable a = true) :
    ∀ c ∈ pr_atom_chars a false, c.utf8Size = 1 := by
  cases a with
  | Symbol s =>
    intro c hc
    exact ((symbol_readable_spec (by simpa [atom_readable] using hr)).2.1 c hc).2
  | Keyword s =>
    intro c hc
    simp only [pr_atom_chars, List.mem_cons] at hc
    rcases hc with rfl | hc
    · decide
    · exact alnum_utf8Size (keyword_readable_spec (by simpa [atom_readable] using hr) c hc)
  | String s =>
    intro c hc
    rw [show pr_atom_chars (.String s) false =
      '"' :: escape_chars s.data ++ ['"'] from rfl] at hc
    rcases List.mem_cons.mp hc with rfl | hc
    · decide
    · rcases List.mem_append.mp hc with hc | hc
      · exact escape_chars_one_byte (string_readable_spec (by simpa [atom_readable] using hr))
          c hc
      · rcases List.mem_singleton.mp hc with rfl
        decide
  | Int n =>
    intro c hc
    obtain ⟨h1, h2⟩ := int_readable_spec hr
    obtain ⟨ha, _, _⟩ := int_chars_facts h1 h2
    exact (digit_or_minus_facts (ha c hc)).2.1
  | Nil => decide
  | True => decide
  | False => decide

theorem pr_one_byte : ∀ (N : Nat) (v : Value), sizeOf v < N → value_readable v = true →
    ∀ c ∈ pr_chars v false, c.utf8Size = 1 := by
  intro N
  induction N with
  | zero =>
    intro v h
    omega
  | succ n ih =>
    intro v hsize hr c hc
    have hitems : ∀ (l : List Value), (∀ u ∈ l, sizeOf u < n) →
        (∀ u ∈ l, value_readable u = true) →
        ∀ c ∈ pr_items_chars l, c.utf8Size = 1 := by
      intro l
      induction l with
      | nil =>
        intro _ _ c hc
        simp [pr_items_chars] at hc
      | cons u rest ihl =>
        intro hs hrl c hc
        cases rest with
        | nil =>
          rw [show pr_items_chars [u] = pr_chars u false from rfl] at hc
          exact ih u (hs u (by simp)) (hrl u (by simp)) c hc
        | cons w ws =>
          rw [show pr_items_chars (u :: w :: ws) =
            pr_chars u false ++ ' ' :: pr_items_chars (w :: ws) from rfl] at hc
          rcases List.mem_append.mp hc with hc | hc
          · exact ih u (hs u (by simp)) (hrl u (by simp)) c hc
          · rcases List.mem_cons.mp hc with rfl | hc
            · decide
            · exact ihl (fun x hx => hs x (by simp [hx])) (fun x hx => hrl x (by simp [hx]))
                c hc
    cases v with
    | Atom a =>
      exact pr_atom_one_byte (by simpa [value_readable] using hr) c hc
    | List items =>
      have hrl := values_readable_iff.mp (by simpa [value_readable] using hr)
      rw [show pr_chars (.List items) false = '(' :: pr_items_chars items ++ [')'] from
        rfl] at hc
      rcases List.mem_cons.mp hc with rfl | hc
      · decide
      · rcases List.mem_append.mp hc with hc | hc
        · exact hitems items (fun u hu => by have := sizeOf_mem_list hu; omega) hrl c hc
        · rcases List.mem_singleton.mp hc with rfl
          decide
    | Vector items =>
      have hrl := values_readable_iff.mp (by simpa [value_readable] using hr)
      rw [show pr_chars (.Vector items) false = '[' :: pr_items_chars items ++ [']'] from
        rfl] at hc
      rcases List.mem_cons.mp hc with rfl | hc
      · decide
      · rcases List.mem_append.mp hc with hc | hc
        · exact hitems items (fun u hu => by have := sizeOf_mem_vector hu; omega) hrl c hc
        · rcases List.mem_singleton.mp hc with rfl
          decide
    | HashMap map =>
      simp [value_readable] at hr

theorem flat_tokens_ne_nil (v : Value) : ∃ t ts, flat_tokens v = t :: ts := by
  cases v with
  | Atom a => exact ⟨atom_token a, [], rfl⟩
  | List items => exact ⟨.LParen, _, rfl⟩
  | Vector items => exact ⟨.LBracket, _, rfl⟩
  | HashMap m => exact ⟨.LBrace, _, rfl⟩

theorem pr_tok_seq : ∀ (N : Nat) (cs : List Char), OneByte cs →
    ∀ (v : Value) (p : Nat) (rest : List Char),
    sizeOf v < N → value_readable v = true →
    cs.drop p = pr_chars v false ++ rest →
    (rest = [] ∨ ∃ c t, rest = c :: t ∧ is_symbol_character c = false) →
    tok_seq cs p (flat_tokens v) (p + (pr_chars v false).length) := by
  intro N
  induction N with
  | zero =>
    intro cs h v p rest hsize
    omega
  | succ n ih =>
    intro cs h v p rest hsize hr hd hsep
    have hitems : ∀ (l : List Value) (q : Nat) (close : Char) (rest' : List Char),
        (∀ u ∈ l, sizeOf u < n) → (∀ u ∈ l, value_readable u = true) →
        cs.drop q = pr_items_chars l ++ (close :: rest') →
        is_symbol_character close = false →
        tok_seq cs q (flat_items l) (q + (pr_items_chars l).length) := by
      intro l
      induction l with
      | nil =>
        intro q close rest' _ _ hdq _
        exact tok_seq.nil q
      | cons u rest2 ihl =>
        intro q close rest' hs hrl hdq hclose
        cases rest2 with
        | nil =>
          have h1 := ih cs h u q (close :: rest') (hs u (by simp)) (hrl u (by simp))
            hdq (Or.inr ⟨close, rest', rfl, hclose⟩)
          have hflat : flat_items [u] = flat_tokens u := by
            rw [show flat_items [u] = flat_tokens u ++ flat_items [] from rfl]
            rw [show flat_items ([] : List Value) = [] from rfl, List.append_nil]
          rw [hflat]
          exact h1
        | cons w ws =>
          have hdu : cs.drop q =
              pr_chars u false ++ (' ' :: (pr_items_chars (w :: ws) ++ (close :: rest'))) := by
            rw [show pr_items_chars (u :: w :: ws) =
              pr_chars u false ++ ' ' :: pr_items_chars (w :: ws) from rfl] at hdq
            simpa using hdq
          have h1 := ih cs h u q (' ' :: (pr_items_chars (w :: ws) ++ (close :: rest')))
            (hs u (by simp)) (hrl u (by simp)) hdu (Or.inr ⟨' ', _, rfl, by decide⟩)
          have hq1 : cs.drop (q + (pr_chars u false).length) =
              ' ' :: (pr_items_chars (w :: ws) ++ (close :: rest')) := by
            rw [drop_add, hdu, List.drop_left]
          have hq2 : cs.drop (q + (pr_chars u false).length + 1) =
              pr_items_chars (w :: ws) ++ (close :: rest') := drop_cons_succ hq1
          have h2 := ihl (q + (pr_chars u false).length + 1) close rest'
            (fun x hx => hs x (by simp [hx])) (fun x hx => hrl x (by simp [hx])) hq2 hclose
          obtain ⟨t0, ts0, hft⟩ : ∃ t0 ts0, flat_items (w :: ws) = t0 :: ts0 := by
            obtain ⟨t0, ts0, hw⟩ := flat_tokens_ne_nil w
            refine ⟨t0, ts0 ++ flat_items ws, ?_⟩
            rw [show flat_items (w :: ws) = flat_tokens w ++ flat_items ws from rfl, hw]
            rfl
          rw [hft] at h2
          have h2' := tok_seq_skip_ws h hq1 (by decide) h2
          rw [← hft] at h2'
          have hcomb := tok_seq_append h1 h2'
          have heq : q + (pr_chars u false).length + 1 + (pr_items_chars (w :: ws)).length =
              q + (pr_items_chars (u :: w :: ws)).length := by
            rw [show pr_items_chars (u :: w :: ws) =
              pr_chars u false ++ ' ' :: pr_items_chars (w :: ws) from rfl]
            simp
            omega
          rw [heq] at hcomb
          exact hcomb
    cases v with
    | Atom a =>
      cases a with
      | Symbol s =>
        obtain ⟨h1, h2, h3, h4, h5, h6⟩ :=
          symbol_readable_spec (by simpa [value_readable, atom_readable] using hr)
        have he := emits_symbol h hd h1 (fun c hc => (h2 c hc).1) hsep
          (by rw [mk_data_eq]; exact h3) (by rw [mk_data_eq]; exact h4)
          (by rw [mk_data_eq]; exact h5) h6
        rw [mk_data_eq] at he
        have hlt : 0 < s.data.length := List.length_pos.mpr h1
        exact tok_seq_single he (by show p < p + s.data.length; omega)
      | Keyword s =>
        have hall := keyword_readable_spec (by simpa [value_readable, atom_readable] using hr)
        have hd' : cs.drop p = ':' :: (s.data ++ rest) := hd
        have hsep' : rest = [] ∨ ∃ c t, rest = c :: t ∧ rust_is_alphanumeric c = false := by
          rcases hsep with rfl | ⟨c, t, rfl, hc⟩
          · exact Or.inl rfl
          · refine Or.inr ⟨c, t, rfl, ?_⟩
            rcases hx : rust_is_alphanumeric c with _ | _
            · rfl
            · rw [alnum_is_symbol hx] at hc
              exact absurd hc (by simp)
        have he := emits_keyword h hd' hall hsep'
        rw [mk_data_eq] at he
        have ht := tok_seq_single he (by omega)
        have heq : p + 1 + s.data.length = p + (s.data.length + 1) := by omega
        rw [heq] at ht
        exact ht
      | String s =>
        have hd0 : cs.drop p = '"' :: ((escape_chars s.data ++ ['"']) ++ rest) := hd
        rw [List.append_assoc] at hd0
        have hd' : cs.drop p = '"' :: (escape_chars s.data ++ '"' :: rest) := hd0
        have he := emits_string h hd'
        rw [mk_data_eq] at he
        have ht := tok_seq_single he (by omega)
        show tok_seq cs p [Token.String s] (p + ('"' :: escape_chars s.data ++ ['"']).length)
        have hlen2 : ('"' :: escape_chars s.data ++ ['"']).length =
            (escape_chars s.data).length + 2 := by simp
        rw [hlen2]
        have heq : p + 1 + (escape_chars s.data).length + 1 =
            p + ((escape_chars s.data).length + 2) := by omega
        rw [heq] at ht
        exact ht
      | Int m =>
        obtain ⟨h1, h2⟩ := int_readable_spec (by simpa [value_readable] using hr)
        have he := emits_int h h1 h2 hd hsep
        obtain ⟨_, hb, _⟩ := int_chars_facts h1 h2
        have hlt : 0 < (int_chars m).length := List.length_pos.mpr hb
        exact tok_seq_single he (by show p < p + (int_chars m).length; omega)
      | Nil =>
        have hd' : cs.drop p = 'n' :: 'i' :: 'l' :: rest := hd
        exact tok_seq_single (emits_nil h hd' hsep) (by show p < p + 3; omega)
      | True =>
        have hd' : cs.drop p = 't' :: 'r' :: 'u' :: 'e' :: rest := hd
        exact tok_seq_single (emits_true h hd' hsep) (by show p < p + 4; omega)
      | False =>
        have hd' : cs.drop p = 'f' :: 'a' :: 'l' :: 's' :: 'e' :: rest := hd
        exact tok_seq_single (emits_false h hd' hsep) (by show p < p + 5; omega)
    | List items =>
      have hrl := values_readable_iff.mp (by simpa [value_readable] using hr)
      have hsz : ∀ u ∈ items, sizeOf u < n := fun u hu => by
        have := sizeOf_mem_list hu
        omega
      have hd0 : cs.drop p = '(' :: ((pr_items_chars items ++ [')']) ++ rest) := hd
      rw [List.append_assoc] at hd0
      have hd1 : cs.drop p = '(' :: (pr_items_chars items ++ (')' :: rest)) := hd0
      have hlp := emits_lparen h hd1
      have hd2 : cs.drop (p + 1) = pr_items_chars items ++ (')' :: rest) :=
        drop_cons_succ hd1
      have hinner := hitems items (p + 1) ')' rest hsz hrl hd2 (by decide)
      have hd3 : cs.drop (p + 1 + (pr_items_chars items).length) = ')' :: rest := by
        rw [drop_add, hd2, List.drop_left]
      have hrp := emits_rparen h hd3
      have hseq : tok_seq cs p (.LParen :: (flat_items items ++ [.RParen]))
          (p + 1 + (pr_items_chars items).length + 1) := by
        refine tok_seq.cons _ _ _ _ _ hlp (by omega) ?_
        exact tok_seq_append hinner (tok_seq_single hrp (by omega))
      have heq : p + 1 + (pr_items_chars items).length + 1 =
          p + ('(' :: pr_items_chars items ++ [')']).length := by
        simp
        omega
      rw [heq] at hseq
      exact hseq
    | Vector items =>
      have hrl := values_readable_iff.mp (by simpa [value_readable] using hr)
      have hsz : ∀ u ∈ items, sizeOf u < n := fun u hu => by
        have := sizeOf_mem_vector hu
        omega
      have hd0 : cs.drop p = '[' :: ((pr_items_chars items ++ [']']) ++ rest) := hd
      rw [List.append_assoc] at hd0
      have hd1 : cs.drop p = '[' :: (pr_items_chars items ++ (']' :: rest)) := hd0
      have hlp := emits_lbracket h hd1
      have hd2 : cs.drop (p + 1) = pr_items_chars items ++ (']' :: rest) :=
        drop_cons_succ hd1
      have hinner := hitems items (p + 1) ']' rest hsz hrl hd2 (by decide)
      have hd3 : cs.drop (p + 1 + (pr_items_chars items).length) = ']' :: rest := by
        rw [drop_add, hd2, List.drop_left]
      have hrp := emits_rbracket h hd3
      have hseq : tok_seq cs p (.LBracket :: (flat_items items ++ [.RBracket]))
          (p + 1 + (pr_items_chars items).length + 1) := by
        refine tok_seq.cons _ _ _ _ _ hlp (by omega) ?_
        exact tok_seq_append hinner (tok_seq_single hrp (by omega))
      have heq : p + 1 + (pr_items_chars items).length + 1 =
          p + ('[' :: pr_items_chars items ++ [']']).length := by
        simp
        omega
      rw [heq] at hseq
      exact hseq
    | HashMap map =>
      simp [value_readable] at hr

/-! ### Tokenizing a printed value -/

theorem tokenize_pr (v : Value) (hr : value_readable v = true) :
    tokenizeL (pr_chars v false) = some (.ok (flat_tokens v)) := by
  have h1 : OneByte (pr_chars v false) := pr_one_byte (sizeOf v + 1) v (by omega) hr
  have hseq := pr_tok_seq (sizeOf v + 1) (pr_chars v false) h1 v 0 []
    (by omega) hr (by simp) (Or.inl rfl)
  have hlen := utf8Len_eq_length _ h1
  have hdq : (pr_chars v false).drop (0 + (pr_chars v false).length) = [] := by
    simp
  have hL0 : leading_ws ((pr_chars v false).drop (0 + (pr_chars v false).length)) = 0 := by
    rw [hdq]
    rfl
  have hend := @parse_token_end (pr_chars v false) h1 (0 + (pr_chars v false).length)
    (by omega) (by rw [hL0]; simpa using hdq)
  have hbound := tok_seq_bound hseq
  have hfin := tokenizeF_of_tok_seq hseq hend (utf8Len (pr_chars v false) + 1) (by omega)
  exact hfin

/-! ### Reading back a printed value -/

theorem flat_head_ne (v : Value) (t0 : Token) (ts0 : List Token)
    (hne : flat_tokens v = t0 :: ts0) (term : Token)
    (hterm : term = .RParen ∨ term = .RBracket ∨ term = .RBrace) : ¬(t0 = term) := by
  intro he
  subst he
  cases v with
  | Atom a =>
    rw [show flat_tokens (.Atom a) = [atom_token a] from rfl] at hne
    injection hne with h1 h2
    rcases hterm with rfl | rfl | rfl <;> cases a <;> simp [atom_token] at h1
  | List items =>
    rw [show flat_tokens (.List items) = .LParen :: (flat_items items ++ [.RParen]) from
      rfl] at hne
    injection hne with h1 h2
    rcases hterm with rfl | rfl | rfl <;> exact absurd h1 (by decide)
  | Vector items =>
    rw [show flat_tokens (.Vector items) = .LBracket :: (flat_items items ++ [.RBracket]) from
      rfl] at hne
    injection hne with h1 h2
    rcases hterm with rfl | rfl | rfl <;> exact absurd h1 (by decide)
  | HashMap map =>
    rw [show flat_tokens (.HashMap map) = .LBrace :: (flat_map_tokens map ++ [.RBrace]) from
      rfl] at hne
    injection hne with h1 h2
    rcases hterm with rfl | rfl | rfl <;> exact absurd h1 (by decide)

theorem read_form_flat : ∀ (N : Nat) (v : Value) (tokens : List Token) (pos : Nat)
    (rest : List Token) (fuel : Nat),
    sizeOf v < N → value_readable v = true →
    tokens.drop pos = flat_tokens v ++ rest →
    2 * (tokens.length - pos) + 2 ≤ fuel + 1 →
    read_form (fuel + 1) tokens pos = some (.ok (v, pos + (flat_tokens v).length)) := by
  intro N
  induction N with
  | zero =>
    intro v _ _ _ _ hsz
    omega
  | succ n ih =>
    intro v tokens pos rest fuel hsize hr hd hfuel
    obtain ⟨tv, tsv, hnev⟩ := flat_tokens_ne_nil v
    have hd0 : tokens.drop pos = tv :: (tsv ++ rest) := by
      rw [hd, hnev]
      rfl
    have hpos : pos < tokens.length := lt_length_of_drop_cons hd0
    have hitems : ∀ (l : List Value) (q : Nat) (rest' : List Token) (term : Token)
        (fuelL : Nat),
        (∀ u ∈ l, sizeOf u < n) → (∀ u ∈ l, value_readable u = true) →
        tokens.drop q = flat_items l ++ (term :: rest') →
        (term = .RParen ∨ term = .RBracket ∨ term = .RBrace) →
        2 * (tokens.length - q) + 2 ≤ fuel →
        tokens.length - q < fuelL →
        read_list_items (read_form fuel tokens) term tokens fuelL q =
          some (.ok (l, q + (flat_items l).length + 1)) := by
      intro l
      induction l with
      | nil =>
        intro q rest' term fuelL _ _ hdq hterm hfq hfl
        obtain ⟨g, rfl⟩ : ∃ g, fuelL = g + 1 := ⟨fuelL - 1, by omega⟩
        have hpk : Reader.peek tokens q = some term := by
          unfold Reader.peek
          rw [get?_eq_head_drop, hdq]
          rfl
        simp [read_list_items, hpk, show flat_items ([] : List Value) = [] from rfl]
      | cons u rest2 ihl =>
        intro q rest' term fuelL hs hrl hdq hterm hfq hfl
        obtain ⟨g, rfl⟩ : ∃ g, fuelL = g + 1 := ⟨fuelL - 1, by omega⟩
        obtain ⟨t0, ts0, hneu⟩ := flat_tokens_ne_nil u
        have hdq1 : tokens.drop q = flat_tokens u ++ (flat_items rest2 ++ (term :: rest')) := by
          rw [show flat_items (u :: rest2) = flat_tokens u ++ flat_items rest2 from rfl] at hdq
          simpa using hdq
        have hd1 : tokens.drop q = t0 :: (ts0 ++ (flat_items rest2 ++ (term :: rest'))) := by
          rw [hdq1, hneu]
          rfl
        have hq : q < tokens.length := lt_length_of_drop_cons hd1
        have hpk : Reader.peek tokens q = some t0 := by
          unfold Reader.peek
          rw [get?_eq_head_drop, hd1]
          rfl
        have ht0 : ¬(t0 = term) := flat_head_ne u t0 ts0 hneu term hterm
        obtain ⟨f2, hf2⟩ : ∃ f2, fuel = f2 + 1 := ⟨fuel - 1, by omega⟩
        have hru : read_form fuel tokens q =
            some (.ok (u, q + (flat_tokens u).length)) := by
          rw [hf2]
          exact ih u tokens q (flat_items rest2 ++ (term :: rest')) f2
            (hs u (by simp)) (hrl u (by simp)) hdq1 (by omega)
        have hlenu : 0 < (flat_tokens u).length := by
          rw [hneu]
          simp
        have hdq2 : tokens.drop (q + (flat_tokens u).length) =
            flat_items rest2 ++ (term :: rest') := by
          rw [drop_add, hdq1, List.drop_left]
        have hq2le : q + (flat_tokens u).length ≤ tokens.length := by
          have h2 := congrArg List.length hdq2
          simp [List.length_drop] at h2
          omega
        have hrec := ihl (q + (flat_tokens u).length) rest' term g
          (fun x hx => hs x (by simp [hx])) (fun x hx => hrl x (by simp [hx]))
          hdq2 hterm (by omega) (by omega)
        have hfin : read_list_items (read_form fuel tokens) term tokens (g + 1) q =
            some (.ok (u :: rest2,
              q + (flat_tokens u).length + (flat_items rest2).length + 1)) := by
          simp [read_list_items, hpk, ht0, hru, hrec]
        rw [hfin]
        have heq : q + (flat_tokens u).length + (flat_items rest2).length + 1 =
            q + (flat_items (u :: rest2)).length + 1 := by
          rw [show flat_items (u :: rest2) = flat_tokens u ++ flat_items rest2 from rfl]
          simp
          omega
        rw [heq]
    cases v with
    | Atom a =>
      have hget : Reader.peek tokens pos = some (atom_token a) := by
        unfold Reader.peek
        rw [get?_eq_head_drop]
        rw [show flat_tokens (.Atom a) = [atom_token a] from rfl] at hd
        rw [hd]
        rfl
      cases a <;>
        simp [read_form, read_atom, hget, atom_token,
          show ∀ x : Atom, flat_tokens (.Atom x) = [atom_token x] from fun x => rfl]
    | List items =>
      have hrl := values_readable_iff.mp (by simpa [value_readable] using hr)
      have hsz : ∀ u ∈ items, sizeOf u < n := fun u hu => by
        have := sizeOf_mem_list hu
        omega
      have hget : Reader.peek tokens pos = some Token.LParen := by
        unfold Reader.peek
        rw [get?_eq_head_drop, hd0]
        rw [show flat_tokens (.List items) = .LParen :: (flat_items items ++ [.RParen]) from
          rfl] at hnev
        injection hnev with h1 h2
        rw [← h1]
        rfl
      have hdrop1 : tokens.drop (pos + 1) = flat_items items ++ (.RParen :: rest) := by
        have hstep := drop_cons_succ hd0
        rw [show flat_tokens (.List items) = .LParen :: (flat_items items ++ [.RParen]) from
          rfl] at hnev
        injection hnev with h1 h2
        rw [hstep, ← h2, List.append_assoc]
        rfl
      have hinner := hitems items (pos + 1) rest .RParen fuel hsz hrl hdrop1
        (Or.inl rfl) (by omega) (by omega)
      have hfin : read_form (fuel + 1) tokens pos =
          some (.ok (.List items, pos + 1 + (flat_items items).length + 1)) := by
        simp [read_form, hget, hinner]
      rw [hfin]
      have heq : pos + 1 + (flat_items items).length + 1 =
          pos + (flat_tokens (Value.List items)).length := by
        rw [show flat_tokens (.List items) = .LParen :: (flat_items items ++ [.RParen]) from
          rfl]
        simp
        omega
      rw [heq]
    | Vector items =>
      have hrl := values_readable_iff.mp (by simpa [value_readable] using hr)
      have hsz : ∀ u ∈ items, sizeOf u < n := fun u hu => by
        have := sizeOf_mem_vector hu
        omega
      have hget : Reader.peek tokens pos = some Token.LBracket := by
        unfold Reader.peek
        rw [get?_eq_head_drop, hd0]
        rw [show flat_tokens (.Vector items) =
          .LBracket :: (flat_items items ++ [.RBracket]) from rfl] at hnev
        injection hnev with h1 h2
        rw [← h1]
        rfl
      have hdrop1 : tokens.drop (pos + 1) = flat_items items ++ (.RBracket :: rest) := by
        have hstep := drop_cons_succ hd0
        rw [show flat_tokens (.Vector items) =
          .LBracket :: (flat_items items ++ [.RBracket]) from rfl] at hnev
        injection hnev with h1 h2
        rw [hstep, ← h2, List.append_assoc]
        rfl
      have hinner := hitems items (pos + 1) rest .RBracket fuel hsz hrl hdrop1
        (Or.inr (Or.inl rfl)) (by omega) (by omega)
      have hfin : read_form (fuel + 1) tokens pos =
          some (.ok (.Vector items, pos + 1 + (flat_items items).length + 1)) := by
        simp [read_form, hget, hinner]
      rw [hfin]
      have heq : pos + 1 + (flat_items items).length + 1 =
          pos + (flat_tokens (Value.Vector items)).length := by
        rw [show flat_tokens (.Vector items) =
          .LBracket :: (flat_items items ++ [.RBracket]) from rfl]
        simp
        omega
      rw [heq]
    | HashMap map =>
      simp [value_readable] at hr

/-! ### Positions carried by tokenizer errors -/

theorem get?_some_lt {α : Type} {cs : List α} {p : Nat} {c : α}
    (h : cs.get? p = some c) : p < cs.length := by
  rw [get?_eq_head_drop] at h
  rcases hd : cs.drop p with _ | ⟨x, t⟩
  · rw [hd] at h
    exact absurd h (by simp)
  · exact lt_length_of_drop_cons hd

theorem get?_none_eq {α : Type} {cs : List α} {p : Nat}
    (h : cs.get? p = none) (hp : p ≤ cs.length) : p = cs.length := by
  rcases Nat.lt_or_ge p cs.length with hlt | hge
  · rw [List.get?_eq_get hlt] at h
    exact absurd h (by simp)
  · omega

theorem expect_char_facts {cs : List Char} (h : OneByte cs) {p : Nat}
    (hp : p ≤ cs.length) (expected : Char) :
    (∃ p', expect_char cs p expected = some (.ok p') ∧ p < p' ∧ p' ≤ cs.length) ∨
    (∃ e, expect_char cs p expected = some (.error e) ∧ parse_err_facts cs e) := by
  have hpk := peek_eq_get? h hp
  rcases hg : cs.get? p with _ | c
  · refine Or.inr ⟨.UnexpectedEndOfInput p, ?_, ?_⟩
    · rw [hg] at hpk
      simp [expect_char, hpk]
    · exact get?_none_eq hg hp
  · rw [hg] at hpk
    have hlt := get?_some_lt hg
    by_cases hc : c = expected
    · exact Or.inl ⟨p + 1, by simp [expect_char, hpk, hc, consume_char], by omega, by omega⟩
    · refine Or.inr ⟨.UnexpectedCharacter c (some expected) p, ?_, ?_⟩
      · simp [expect_char, hpk, hc]
      · simpa [parse_err_facts] using hg

theorem take_while_total {cs : List Char} (h : OneByte cs) (pred : Char → Bool) :
    ∀ fuel p, p ≤ cs.length → cs.length - p < fuel →
    ∃ s p', take_whileF cs pred fuel p = some (s, p') ∧ p ≤ p' ∧ p' ≤ cs.length ∧
      (∀ c, cs.get? p = some c → pred c = true → p < p') := by
  intro fuel
  induction fuel with
  | zero =>
    intro p hp hf
    omega
  | succ n ih =>
    intro p hp hf
    have hpk := peek_eq_get? h hp
    rcases hg : cs.get? p with _ | c
    · rw [hg] at hpk
      exact ⟨[], p, by simp [take_whileF, hpk], by omega, hp,
        fun c hc _ => by cases hc⟩
    · rw [hg] at hpk
      have hlt := get?_some_lt hg
      by_cases hc : pred c = true
      · obtain ⟨s, p', hr, hle1, hle2, _⟩ := ih (p + 1) (by omega) (by omega)
        exact ⟨c :: s, p', by simp [take_whileF, hpk, hc, consume_char, hr], by omega, hle2,
          fun _ _ _ => by omega⟩
      · rw [Bool.not_eq_true] at hc
        refine ⟨[], p, by simp [take_whileF, hpk, hc], by omega, hp, ?_⟩
        intro c' hc' hpc
        obtain rfl : c = c' := by injection hc'
        rw [hc] at hpc
        cases hpc

theorem parse_bare_sequence_total {cs : List Char} (h : OneByte cs) {p : Nat}
    (hp : p ≤ cs.length) :
    ∃ t p', parse_bare_sequence cs p = some (t, p') ∧ p ≤ p' ∧ p' ≤ cs.length ∧
      (∀ c, cs.get? p = some c → is_symbol_character c = true → p < p') := by
  obtain ⟨s, p', hr, hle1, hle2, hstrict⟩ := take_while_total h is_symbol_character
    (utf8Len cs + 1) p hp (by rw [utf8Len_eq_length cs h]; omega)
  have hr' : take_while cs is_symbol_character p = some (s, p') := hr
  by_cases h1 : String.mk s = "nil"
  · exact ⟨.Nil, p', by simp [parse_bare_sequence, hr', h1], hle1, hle2, hstrict⟩
  · by_cases h2 : String.mk s = "true"
    · exact ⟨.True, p', by simp [parse_bare_sequence, hr', h1, h2], hle1, hle2, hstrict⟩
    · by_cases h3 : String.mk s = "false"
      · exact ⟨.False, p', by simp [parse_bare_sequence, hr', h1, h2, h3], hle1, hle2, hstrict⟩
      · rcases h4 : parse_i32 s with _ | m
        · exact ⟨.Symbol (String.mk s), p',
            by simp [parse_bare_sequence, hr', h1, h2, h3, h4], hle1, hle2, hstrict⟩
        · exact ⟨.Int m, p',
            by simp [parse_bare_sequence, hr', h1, h2, h3, h4], hle1, hle2, hstrict⟩

theorem parse_keyword_facts {cs : List Char} (h : OneByte cs) {p : Nat}
    (hp : p ≤ cs.length) :
    (∃ t p', parse_keyword cs p = some (.ok (t, p')) ∧ p < p' ∧ p' ≤ cs.length) ∨
    (∃ e, parse_keyword cs p = some (.error e) ∧ parse_err_facts cs e) := by
  rcases expect_char_facts h hp ':' with ⟨p1, he, hle1, hle2⟩ | ⟨e, he, hf⟩
  · obtain ⟨s, p', hr, hle3, hle4, _⟩ := take_while_total h rust_is_alphanumeric
      (utf8Len cs + 1) p1 hle2 (by rw [utf8Len_eq_length cs h]; omega)
    refine Or.inl ⟨.Keyword (String.mk s), p', ?_, by omega, hle4⟩
    simp [parse_keyword, take_while, he, hr]
  · refine Or.inr ⟨e, ?_, hf⟩
    unfold parse_keyword
    rw [he]

theorem psl_facts {cs : List Char} (h : OneByte cs) :
    ∀ fuel p acc esc, p ≤ cs.length → cs.length - p < fuel →
    (∃ r p', parse_string_loopF cs fuel p acc esc = some (.ok (r, p')) ∧
      p ≤ p' ∧ p' ≤ cs.length) ∨
    (∃ e, parse_string_loopF cs fuel p acc esc = some (.error e) ∧ parse_err_facts cs e) := by
  intro fuel
  induction fuel with
  | zero =>
    intro p acc esc hp hf
    omega
  | succ n ih =>
    intro p acc esc hp hf
    have hpk := peek_eq_get? h hp
    rcases hg : cs.get? p with _ | c
    · rw [hg] at hpk
      exact Or.inl ⟨acc, p, by simp [parse_string_loopF, hpk], by omega, hp⟩
    · rw [hg] at hpk
      have hlt := get?_some_lt hg
      cases esc with
      | true =>
        by_cases h1 : c = '\\' ∨ c = '"'
        · rcases ih (p + 1) (acc ++ [c]) false (by omega) (by omega) with
            ⟨r, p', hr, hle1, hle2⟩ | ⟨e, hr, hfact⟩
          · refine Or.inl ⟨r, p', ?_, by omega, hle2⟩
            rcases h1 with rfl | rfl <;> simp [parse_string_loopF, hpk, consume_char, hr]
          · refine Or.inr ⟨e, ?_, hfact⟩
            rcases h1 with rfl | rfl <;> simp [parse_string_loopF, hpk, consume_char, hr]
        · push_neg at h1
          obtain ⟨h1a, h1b⟩ := h1
          by_cases h2 : c = 'n'
          · subst h2
            rcases ih (p + 1) (acc ++ ['\n']) false (by omega) (by omega) with
              ⟨r, p', hr, hle1, hle2⟩ | ⟨e, hr, hfact⟩
            · exact Or.inl ⟨r, p', by simp [parse_string_loopF, hpk, consume_char, hr],
                by omega, hle2⟩
            · exact Or.inr ⟨e, by simp [parse_string_loopF, hpk, consume_char, hr], hfact⟩
          · refine Or.inr ⟨.UnknownEscapeSequence c p, ?_, ?_⟩
            · simp [parse_string_loopF, hpk, h1a, h1b, h2]
            · simpa [parse_err_facts] using hg
      | false =>
        by_cases h3 : c = '\\'
        · subst h3
          rcases ih (p + 1) acc true (by omega) (by omega) with
            ⟨r, p', hr, hle1, hle2⟩ | ⟨e, hr, hfact⟩
          · exact Or.inl ⟨r, p', by simp [parse_string_loopF, hpk, consume_char, hr],
              by omega, hle2⟩
          · exact Or.inr ⟨e, by simp [parse_string_loopF, hpk, consume_char, hr], hfact⟩
        · by_cases h4 : c = '"'
          · subst h4
            exact Or.inl ⟨acc, p, by simp [parse_string_loopF, hpk], by omega, hp⟩
          · rcases ih (p + 1) (acc ++ [c]) false (by omega) (by omega) with
              ⟨r, p', hr, hle1, hle2⟩ | ⟨e, hr, hfact⟩
            · exact Or.inl ⟨r, p', by simp [parse_string_loopF, hpk, consume_char, h3, h4, hr],
                by omega, hle2⟩
            · exact Or.inr ⟨e, by simp [parse_string_loopF, hpk, consume_char, h3, h4, hr],
                hfact⟩

theorem parse_string_facts {cs : List Char} (h : OneByte cs) {p : Nat}
    (hp : p ≤ cs.length) :
    (∃ t p', parse_string cs p = some (.ok (t, p')) ∧ p < p' ∧ p' ≤ cs.length) ∨
    (∃ e, parse_string cs p = some (.error e) ∧ parse_err_facts cs e) := by
  rcases expect_char_facts h hp '"' with ⟨p1, he, hle1, hle2⟩ | ⟨e, he, hf⟩
  · rcases psl_facts h (utf8Len cs + 1) p1 [] false hle2
      (by rw [utf8Len_eq_length cs h]; omega) with
      ⟨r, p2, hr, hle3, hle4⟩ | ⟨e, hr, hfact⟩
    · rcases expect_char_facts h hle4 '"' with ⟨p3, he2, hle5, hle6⟩ | ⟨e, he2, hfact⟩
      · refine Or.inl ⟨.String (String.mk r), p3, ?_, by omega, hle6⟩
        simp [parse_string, he, hr, he2]
      · refine Or.inr ⟨e, ?_, hfact⟩
        simp [parse_string, he, hr, he2]
    · refine Or.inr ⟨e, ?_, hfact⟩
      simp [parse_string, he, hr]
  · refine Or.inr ⟨e, ?_, hf⟩
    simp [parse_string, he]


theorem parse_token_facts {cs : List Char} (h : OneByte cs) {p : Nat}
    (hp : p ≤ cs.length) :
    (∃ t p', parse_token cs p = some (.ok (some t, p')) ∧ p < p' ∧ p' ≤ cs.length) ∨
    (∃ p', parse_token cs p = some (.ok (none, p')) ∧ p ≤ p' ∧ p' ≤ cs.length) ∨
    (∃ e, parse_token cs p = some (.error e) ∧ parse_err_facts cs e) := by
  have hq := cw_eq h hp
  have hwsle : leading_ws (cs.drop p) ≤ cs.length - p := by
    have h1 := leading_ws_le (cs.drop p)
    simpa [List.length_drop] using h1
  set q := p + leading_ws (cs.drop p) with hqdef
  have hql : q ≤ cs.length := by omega
  have hpq : p ≤ q := by omega
  have hpk := peek_eq_get? h hql
  rcases hg : cs.get? q with _ | c
  · rw [hg] at hpk
    exact Or.inr (Or.inl ⟨q, by simp [parse_token, hq, hpk], hpq, hql⟩)
  · rw [hg] at hpk
    have hlt := get?_some_lt hg
    by_cases h1 : c = ';'
    · exact Or.inr (Or.inl ⟨q, by simp [parse_token, hq, hpk, h1], hpq, hql⟩)
    by_cases h2 : c = '('
    · exact Or.inl ⟨.LParen, q + 1, by simp [parse_token, hq, hpk, h1, h2, consume_char],
        by omega, by omega⟩
    by_cases h3 : c = ')'
    · exact Or.inl ⟨.RParen, q + 1, by simp [parse_token, hq, hpk, h1, h2, h3, consume_char],
        by omega, by omega⟩
    by_cases h4 : c = '['
    · exact Or.inl ⟨.LBracket, q + 1,
        by simp [parse_token, hq, hpk, h1, h2, h3, h4, consume_char], by omega, by omega⟩
    by_cases h5 : c = ']'
    · exact Or.inl ⟨.RBracket, q + 1,
        by simp [parse_token, hq, hpk, h1, h2, h3, h4, h5, consume_char], by omega, by omega⟩
    by_cases h6 : c = '\x7b'
    · exact Or.inl ⟨.LBrace, q + 1,
        by simp [parse_token, hq, hpk, h1, h2, h3, h4, h5, h6, consume_char],
        by omega, by omega⟩
    by_cases h7 : c = '\x7d'
    · exact Or.inl ⟨.RBrace, q + 1,
        by simp [parse_token, hq, hpk, h1, h2, h3, h4, h5, h6, h7, consume_char],
        by omega, by omega⟩
    by_cases h8 : c = '\''
    · exact Or.inl ⟨.Quote, q + 1,
        by simp [parse_token, hq, hpk, h1, h2, h3, h4, h5, h6, h7, h8, consume_char],
        by omega, by omega⟩
    by_cases h9 : c = '`'
    · exact Or.inl ⟨.Quasiquote, q + 1,
        by simp [parse_token, hq, hpk, h1, h2, h3, h4, h5, h6, h7, h8, h9, consume_char],
        by omega, by omega⟩
    by_cases h10 : c = '~'
    · have hq1 : q + 1 ≤ cs.length := by omega
      have hpk2 := peek_eq_get? h hq1
      rcases hg2 : cs.get? (q + 1) with _ | c2
      · rw [hg2] at hpk2
        exact Or.inl ⟨.Unquote, q + 1,
          by simp [parse_token, hq, hpk, h1, h2, h3, h4, h5, h6, h7, h8, h9, h10, hpk2,
            consume_char], by omega, by omega⟩
      · rw [hg2] at hpk2
        have hlt2 := get?_some_lt hg2
        by_cases hat : c2 = '@'
        · exact Or.inl ⟨.SpliceUnquote, q + 1 + 1,
            by simp [parse_token, hq, hpk, h1, h2, h3, h4, h5, h6, h7, h8, h9, h10, hpk2, hat,
              consume_char], by omega, by omega⟩
        · exact Or.inl ⟨.Unquote, q + 1,
            by simp [parse_token, hq, hpk, h1, h2, h3, h4, h5, h6, h7, h8, h9, h10, hpk2, hat,
              consume_char], by omega, by omega⟩
    by_cases h11 : c = '@'
    · exact Or.inl ⟨.Deref, q + 1,
        by simp [parse_token, hq, hpk, h1, h2, h3, h4, h5, h6, h7, h8, h9, h10, h11,
          consume_char], by omega, by omega⟩
    by_cases h12 : c = '^'
    · exact Or.inl ⟨.WithMeta, q + 1,
        by simp [parse_token, hq, hpk, h1, h2, h3, h4, h5, h6, h7, h8, h9, h10, h11, h12,
          consume_char], by omega, by omega⟩
    by_cases h13 : c = ':'
    · rcases parse_keyword_facts h hql with ⟨t, p', hk, hlt', hle'⟩ | ⟨e, hk, hf⟩
      · exact Or.inl ⟨t, p',
          by simp [parse_token, hq, hpk, h1, h2, h3, h4, h5, h6, h7, h8, h9, h10, h11, h12,
            h13, hk], by omega, hle'⟩
      · exact Or.inr (Or.inr ⟨e,
          by simp [parse_token, hq, hpk, h1, h2, h3, h4, h5, h6, h7, h8, h9, h10, h11, h12,
            h13, hk], hf⟩)
    by_cases h14 : c = '"'
    · rcases parse_string_facts h hql with ⟨t, p', hk, hlt', hle'⟩ | ⟨e, hk, hf⟩
      · exact Or.inl ⟨t, p',
          by simp [parse_token, hq, hpk, h1, h2, h3, h4, h5, h6, h7, h8, h9, h10, h11, h12,
            h13, h14, hk], by omega, hle'⟩
      · exact Or.inr (Or.inr ⟨e,
          by simp [parse_token, hq, hpk, h1, h2, h3, h4, h5, h6, h7, h8, h9, h10, h11, h12,
            h13, h14, hk], hf⟩)
    by_cases h15 : is_symbol_character c = true
    · obtain ⟨t, p', hb, hle1, hle2, hstrict⟩ := parse_bare_sequence_total h hql
      have hqlt : q < p' := hstrict c hg h15
      exact Or.inl ⟨t, p',
        by simp [parse_token, hq, hpk, h1, h2, h3, h4, h5, h6, h7, h8, h9, h10, h11, h12,
          h13, h14, h15, hb], by omega, hle2⟩
    · refine Or.inr (Or.inr ⟨.UnexpectedCharacter c none q, ?_, ?_⟩)
      · simp [parse_token, hq, hpk, h1, h2, h3, h4, h5, h6, h7, h8, h9, h10, h11, h12, h13,
          h14, h15]
      · exact hg

theorem tokenizeF_facts {cs : List Char} (h : OneByte cs) :
    ∀ fuel p, p ≤ cs.length → cs.length - p < fuel →
    (∃ ts, tokenizeF cs fuel p = some (.ok ts)) ∨
    (∃ e, tokenizeF cs fuel p = some (.error e) ∧ parse_err_facts cs e) := by
  intro fuel
  induction fuel with
  | zero =>
    intro p hp hf
    omega
  | succ n ih =>
    intro p hp hf
    rcases parse_token_facts h hp with ⟨t, p', hpt, hlt, hle⟩ | ⟨p', hpt, _, _⟩ |
      ⟨e, hpt, hfact⟩
    · rcases ih p' hle (by omega) with ⟨ts, hr⟩ | ⟨e, hr, hfact⟩
      · exact Or.inl ⟨t :: ts, by simp [tokenizeF, hpt, hr]⟩
      · exact Or.inr ⟨e, by simp [tokenizeF, hpt, hr], hfact⟩
    · exact Or.inl ⟨[], by simp [tokenizeF, hpt]⟩
    · exact Or.inr ⟨e, by simp [tokenizeF, hpt], hfact⟩

theorem tokenizeL_err_facts {cs : List Char} (h : OneByte cs) {e : ParseError}
    (he : tokenizeL cs = some (.error e)) : parse_err_facts cs e := by
  rcases tokenizeF_facts h (utf8Len cs + 1) 0 (by omega)
      (by rw [utf8Len_eq_length cs h]; omega) with ⟨ts, hr⟩ | ⟨e', hr, hfact⟩
  · rw [tokenizeL] at he
    rw [hr] at he
    cases he
  · rw [tokenizeL] at he
    rw [hr] at he
    obtain rfl : e' = e := by injection he with h1; injection h1
    exact hfact

/-! ### Positions carried by reader errors -/

theorem read_map_pairs_err (pos : Nat) :
    ∀ N items acc e, items.length ≤ N → read_map_pairs pos items acc = .error e →
      e = .UnevenHashMap pos ∨ ∃ w, e = .UnhashableType w pos := by
  intro N
  induction N with
  | zero =>
    intro items acc e hlen he
    obtain rfl : items = [] := List.length_eq_zero.mp (by omega)
    simp [read_map_pairs] at he
  | succ n ih =>
    intro items acc e hlen he
    rcases items with _ | ⟨k, _ | ⟨v, rest⟩⟩
    · simp [read_map_pairs] at he
    · simp [read_map_pairs] at he
      exact Or.inl he.symm
    · cases k with
      | Atom a =>
        have hlen2 : rest.length ≤ n := by
          simp at hlen
          omega
        exact ih rest (hm_insert acc a v) e hlen2 he
      | List l =>
        refine Or.inr ⟨.List l, ?_⟩
        have h2 : Except.error (ReadError.UnhashableType (.List l) pos) =
            (Except.error e : Except ReadError (List (Atom × Value))) := he
        injection h2 with h3
        exact h3.symm
      | Vector l =>
        refine Or.inr ⟨.Vector l, ?_⟩
        have h2 : Except.error (ReadError.UnhashableType (.Vector l) pos) =
            (Except.error e : Except ReadError (List (Atom × Value))) := he
        injection h2 with h3
        exact h3.symm
      | HashMap m =>
        refine Or.inr ⟨.HashMap m, ?_⟩
        have h2 : Except.error (ReadError.UnhashableType (.HashMap m) pos) =
            (Except.error e : Except ReadError (List (Atom × Value))) := he
        injection h2 with h3
        exact h3.symm

theorem read_atom_facts {tokens : List Token}
    {rf : Nat → Option (Except ReadError (Value × Nat))}
    (hrf : ∀ q, q ≤ tokens.length →
      (∀ v p', rf q = some (.ok (v, p')) → q < p' ∧ p' ≤ tokens.length) ∧
      (∀ e, rf q = some (.error e) → read_err_facts tokens e))
    {pos : Nat} (hp : pos ≤ tokens.length) :
    (∀ v p', read_atom rf tokens pos = some (.ok (v, p')) →
      pos < p' ∧ p' ≤ tokens.length) ∧
    (∀ e, read_atom rf tokens pos = some (.error e) → read_err_facts tokens e) := by
  rcases hg : tokens.get? pos with _ | t
  · have hpk : Reader.peek tokens pos = none := hg
    refine ⟨fun v p' hv => by simp [read_atom, hpk] at hv, fun e he => ?_⟩
    simp [read_atom, hpk] at he
    subst he
    exact get?_none_eq hg hp
  · have hp1 : pos + 1 ≤ tokens.length := get?_some_lt hg
    have hpk : Reader.peek tokens pos = some t := hg
    cases t
    case WithMeta =>
      obtain ⟨hok1, herr1⟩ := hrf (pos + 1) hp1
      rcases hr : rf (pos + 1) with _ | e0 | ⟨metadata, p⟩
      · exact ⟨fun v p' hv => by simp [read_atom, hpk, hr] at hv,
          fun e he => by simp [read_atom, hpk, hr] at he⟩
      · refine ⟨fun v p' hv => by simp [read_atom, hpk, hr] at hv,
          fun e he => ?_⟩
        simp [read_atom, hpk, hr] at he
        subst he
        exact herr1 _ hr
      · have h3 := hok1 metadata p hr
        obtain ⟨hok2, herr2⟩ := hrf p h3.2
        rcases hr2 : rf p with _ | e1 | ⟨target, p2⟩
        · exact ⟨fun v p' hv => by simp [read_atom, hpk, hr, hr2] at hv,
            fun e he => by simp [read_atom, hpk, hr, hr2] at he⟩
        · refine ⟨fun v p' hv => by simp [read_atom, hpk, hr, hr2] at hv,
            fun e he => ?_⟩
          simp [read_atom, hpk, hr, hr2] at he
          subst he
          exact herr2 _ hr2
        · have h4 := hok2 target p2 hr2
          refine ⟨fun v p' hv => ?_,
            fun e he => by simp [read_atom, hpk, hr, hr2] at he⟩
          simp [read_atom, hpk, hr, hr2] at hv
          obtain ⟨h5, h6⟩ := hv
          omega
    all_goals first
      | -- reader-macro tokens: one recursive read of the operand
        (obtain ⟨hok1, herr1⟩ := hrf (pos + 1) hp1
         rcases hr : rf (pos + 1) with _ | e0 | ⟨form, p⟩
         · exact ⟨fun v p' hv => by simp [read_atom, hpk, hr] at hv,
             fun e he => by simp [read_atom, hpk, hr] at he⟩
         · refine ⟨fun v p' hv => by simp [read_atom, hpk, hr] at hv,
             fun e he => ?_⟩
           simp [read_atom, hpk, hr] at he
           subst he
           exact herr1 _ hr
         · have h3 := hok1 form p hr
           refine ⟨fun v p' hv => ?_,
             fun e he => by simp [read_atom, hpk, hr] at he⟩
           simp [read_atom, hpk, hr] at hv
           obtain ⟨h5, h6⟩ := hv
           omega)
      | -- plain atom tokens: the cursor moves one token forward
        (refine ⟨fun v p' hv => ?_,
           fun e he => by simp [read_atom, hpk] at he⟩
         simp [read_atom, hpk] at hv
         obtain ⟨h5, h6⟩ := hv
         omega)
      | -- delimiter tokens: UnexpectedToken with the incremented position
        (refine ⟨fun v p' hv => by simp [read_atom, hpk] at hv, fun e he => ?_⟩
         simp [read_atom, hpk] at he
         subst he
         show tokens.get? (pos + 1 - 1) = some _
         simpa using hg)

theorem read_list_items_facts {tokens : List Token}
    {rf : Nat → Option (Except ReadError (Value × Nat))}
    (hrf : ∀ q, q ≤ tokens.length →
      (∀ v p', rf q = some (.ok (v, p')) → q < p' ∧ p' ≤ tokens.length) ∧
      (∀ e, rf q = some (.error e) → read_err_facts tokens e))
    (terminator : Token) :
    ∀ fuel pos, pos ≤ tokens.length →
    (∀ items p', read_list_items rf terminator tokens fuel pos = some (.ok (items, p')) →
      pos < p' ∧ p' ≤ tokens.length) ∧
    (∀ e, read_list_items rf terminator tokens fuel pos = some (.error e) →
      read_err_facts tokens e) := by
  intro fuel
  induction fuel with
  | zero =>
    intro pos hp
    exact ⟨fun items p' hv => by simp [read_list_items] at hv,
      fun e he => by simp [read_list_items] at he⟩
  | succ n ih =>
    intro pos hp
    rcases hg : tokens.get? pos with _ | t
    · have hpk : Reader.peek tokens pos = none := hg
      refine ⟨fun items p' hv => by simp [read_list_items, hpk] at hv,
        fun e he => ?_⟩
      simp [read_list_items, hpk] at he
      subst he
      exact get?_none_eq hg hp
    · have hp1 : pos + 1 ≤ tokens.length := get?_some_lt hg
      have hpk : Reader.peek tokens pos = some t := hg
      by_cases ht : t = terminator
      · refine ⟨fun items p' hv => ?_,
          fun e he => by simp [read_list_items, hpk, ht] at he⟩
        simp [read_list_items, hpk, ht] at hv
        obtain ⟨h1, h2⟩ := hv
        omega
      · obtain ⟨hok, herr⟩ := hrf pos hp
        rcases hr : rf pos with _ | e0 | ⟨value, p⟩
        · exact ⟨fun items p' hv => by simp [read_list_items, hpk, ht, hr] at hv,
            fun e he => by simp [read_list_items, hpk, ht, hr] at he⟩
        · refine ⟨fun items p' hv => by simp [read_list_items, hpk, ht, hr] at hv,
            fun e he => ?_⟩
          simp [read_list_items, hpk, ht, hr] at he
          subst he
          exact herr _ hr
        · have hbound := hok value p hr
          obtain ⟨ihok, iherr⟩ := ih p hbound.2
          rcases hrec : read_list_items rf terminator tokens n p with _ | e2 | ⟨items2, p2⟩
          · exact ⟨fun items p' hv =>
                by simp [read_list_items, hpk, ht, hr, hrec] at hv,
              fun e he => by simp [read_list_items, hpk, ht, hr, hrec] at he⟩
          · refine ⟨fun items p' hv =>
                by simp [read_list_items, hpk, ht, hr, hrec] at hv,
              fun e he => ?_⟩
            simp [read_list_items, hpk, ht, hr, hrec] at he
            subst he
            exact iherr _ hrec
          · have hb2 := ihok items2 p2 hrec
            refine ⟨fun items p' hv => ?_,
              fun e he => by simp [read_list_items, hpk, ht, hr, hrec] at he⟩
            simp [read_list_items, hpk, ht, hr, hrec] at hv
            obtain ⟨h1, h2⟩ := hv
            omega

theorem read_form_facts {tokens : List Token} :
    ∀ fuel pos, pos ≤ tokens.length →
    (∀ v p', read_form fuel tokens pos = some (.ok (v, p')) →
      pos < p' ∧ p' ≤ tokens.length) ∧
    (∀ e, read_form fuel tokens pos = some (.error e) → read_err_facts tokens e) := by
  intro fuel
  induction fuel with
  | zero =>
    intro pos hp
    exact ⟨fun v p' hv => by simp [read_form] at hv,
      fun e he => by simp [read_form] at he⟩
  | succ n ih =>
    intro pos hp
    have hrf : ∀ q, q ≤ tokens.length →
        (∀ v p', read_form n tokens q = some (.ok (v, p')) →
          q < p' ∧ p' ≤ tokens.length) ∧
        (∀ e, read_form n tokens q = some (.error e) → read_err_facts tokens e) :=
      fun q hq => ih q hq
    rcases hg : tokens.get? pos with _ | t
    · have hpk : Reader.peek tokens pos = none := hg
      refine ⟨fun v p' hv => by simp [read_form, hpk] at hv, fun e he => ?_⟩
      simp [read_form, hpk] at he
      subst he
      exact get?_none_eq hg hp
    · have hp1 : pos + 1 ≤ tokens.length := get?_some_lt hg
      have hpk : Reader.peek tokens pos = some t := hg
      have hat := read_atom_facts hrf hp
      obtain ⟨liok, lierr⟩ := read_list_items_facts hrf Token.RParen n (pos + 1) hp1
      obtain ⟨vbok, vberr⟩ := read_list_items_facts hrf Token.RBracket n (pos + 1) hp1
      obtain ⟨mbok, mberr⟩ := read_list_items_facts hrf Token.RBrace n (pos + 1) hp1
      cases t
      case LParen =>
        rcases hli : read_list_items (read_form n tokens) Token.RParen tokens n (pos + 1)
            with _ | e0 | ⟨items, pL⟩
        · exact ⟨fun v p' hv => by simp [read_form, hpk, hli] at hv,
            fun e he => by simp [read_form, hpk, hli] at he⟩
        · refine ⟨fun v p' hv => by simp [read_form, hpk, hli] at hv,
            fun e he => ?_⟩
          simp [read_form, hpk, hli] at he
          subst he
          exact lierr _ hli
        · have hb := liok items pL hli
          refine ⟨fun v p' hv => ?_,
            fun e he => by simp [read_form, hpk, hli] at he⟩
          simp [read_form, hpk, hli] at hv
          obtain ⟨h1, h2⟩ := hv
          omega
      case LBracket =>
        rcases hli : read_list_items (read_form n tokens) Token.RBracket tokens n (pos + 1)
            with _ | e0 | ⟨items, pL⟩
        · exact ⟨fun v p' hv => by simp [read_form, hpk, hli] at hv,
            fun e he => by simp [read_form, hpk, hli] at he⟩
        · refine ⟨fun v p' hv => by simp [read_form, hpk, hli] at hv,
            fun e he => ?_⟩
          simp [read_form, hpk, hli] at he
          subst he
          exact vberr _ hli
        · have hb := vbok items pL hli
          refine ⟨fun v p' hv => ?_,
            fun e he => by simp [read_form, hpk, hli] at he⟩
          simp [read_form, hpk, hli] at hv
          obtain ⟨h1, h2⟩ := hv
          omega
      case LBrace =>
        rcases hli : read_list_items (read_form n tokens) Token.RBrace tokens n (pos + 1)
            with _ | e0 | ⟨items, pL⟩
        · exact ⟨fun v p' hv => by simp [read_form, hpk, hli] at hv,
            fun e he => by simp [read_form, hpk, hli] at he⟩
        · refine ⟨fun v p' hv => by simp [read_form, hpk, hli] at hv,
            fun e he => ?_⟩
          simp [read_form, hpk, hli] at he
          subst he
          exact mberr _ hli
        · have hb := mbok items pL hli
          rcases hmp : read_map_pairs pL items [] with e2 | map
          · refine ⟨fun v p' hv => by simp [read_form, hpk, hli, hmp] at hv,
              fun e he => ?_⟩
            simp [read_form, hpk, hli, hmp] at he
            subst he
            rcases read_map_pairs_err pL items.length items [] e2 (by omega) hmp with
              rfl | ⟨w, rfl⟩
            · exact hb.2
            · exact hb.2
          · refine ⟨fun v p' hv => ?_,
              fun e he => by simp [read_form, hpk, hli, hmp] at he⟩
            simp [read_form, hpk, hli, hmp] at hv
            obtain ⟨h1, h2⟩ := hv
            omega
      all_goals exact ⟨fun v p' hv => hat.1 v p'
          (by simpa [read_form, hpk] using hv),
        fun e he => hat.2 e (by simpa [read_form, hpk] using he)⟩

/-! ### Reading back a printed value -/

theorem read_str_pr (v : Value) (hr : value_readable v = true) :
    read_strL (pr_chars v false) = some (.ok v) := by
  have htok := tokenize_pr v hr
  obtain ⟨t0, ts0, hne⟩ := flat_tokens_ne_nil v
  have hrf := read_form_flat (sizeOf v + 1) v (flat_tokens v) 0 []
    (2 * (flat_tokens v).length + 1) (by omega) hr (by simp) (by omega)
  rw [hne] at htok hrf
  have hrf2 : read_form (2 * (ts0.length + 1) + 2) (t0 :: ts0) 0 =
      some (.ok (v, 0 + (t0 :: ts0).length)) := hrf
  simp [read_strL, htok, hrf2]

/-! ### A comment stops the tokenizer -/

theorem tokenize_comment_stop {cs : List Char} {p q : Nat} (fuel : Nat)
    (hcw : consume_whitespace cs p = some q) (hpk : peek cs q = some (some ';')) :
    tokenizeF cs (fuel + 1) p = some (.ok []) := by
  simp [tokenizeF, parse_token, hcw, hpk]

/-! ### The shape of hash-map reading errors -/

theorem read_map_pairs_odd (pos : Nat) :
    ∀ N items acc, items.length ≤ N → items.length % 2 = 1 →
      read_map_pairs pos items acc = .error (.UnevenHashMap pos) ∨
      ∃ w, read_map_pairs pos items acc = .error (.UnhashableType w pos) := by
  intro N
  induction N with
  | zero =>
    intro items acc hlen hodd
    obtain rfl : items = [] := List.length_eq_zero.mp (by omega)
    simp at hodd
  | succ n ih =>
    intro items acc hlen hodd
    rcases items with _ | ⟨k, _ | ⟨v, rest⟩⟩
    · simp at hodd
    · exact Or.inl rfl
    · cases k with
      | Atom a =>
        have h1 : rest.length ≤ n := by
          simp at hlen
          omega
        have h2 : rest.length % 2 = 1 := by
          simp at hodd
          omega
        exact ih rest (hm_insert acc a v) h1 h2
      | List l => exact Or.inr ⟨.List l, rfl⟩
      | Vector l => exact Or.inr ⟨.Vector l, rfl⟩
      | HashMap m => exact Or.inr ⟨.HashMap m, rfl⟩

theorem read_map_pairs_ok_atoms (pos : Nat) :
    ∀ N items acc m, items.length ≤ N → read_map_pairs pos items acc = .ok m →
      ∀ i (hi : i < items.length), i % 2 = 0 →
        ∃ a, items.get ⟨i, hi⟩ = Value.Atom a := by
  intro N
  induction N with
  | zero =>
    intro items acc m hlen hok i hi h2
    obtain rfl : items = [] := List.length_eq_zero.mp (by omega)
    simp at hi
  | succ n ih =>
    intro items acc m hlen hok i hi h2
    rcases items with _ | ⟨k, _ | ⟨v, rest⟩⟩
    · simp at hi
    · simp [read_map_pairs] at hok
    · cases k with
      | Atom a =>
        rcases i with _ | _ | j
        · exact ⟨a, rfl⟩
        · omega
        · have h1 : rest.length ≤ n := by
            simp at hlen
            omega
          have hj : j < rest.length := by
            simp at hi
            omega
          exact ih rest (hm_insert acc a v) m h1 hok j hj (by omega)
      | List l => simp [read_map_pairs] at hok
      | Vector l => simp [read_map_pairs] at hok
      | HashMap mm => simp [read_map_pairs] at hok

theorem read_map_pairs_bad_key (pos : Nat) :
    ∀ N items acc, items.length ≤ N → items.length % 2 = 0 →
      (∃ i, ∃ hi : i < items.length, i % 2 = 0 ∧
        ∀ a, items.get ⟨i, hi⟩ ≠ Value.Atom a) →
      ∃ w, read_map_pairs pos items acc = .error (.UnhashableType w pos) := by
  intro N
  induction N with
  | zero =>
    intro items acc hlen _ hbad
    obtain rfl : items = [] := List.length_eq_zero.mp (by omega)
    obtain ⟨i, hi, _, _⟩ := hbad
    simp at hi
  | succ n ih =>
    intro items acc hlen heven hbad
    rcases items with _ | ⟨k, _ | ⟨v, rest⟩⟩
    · obtain ⟨i, hi, _, _⟩ := hbad
      simp at hi
    · simp at heven
    · cases k with
      | Atom a =>
        obtain ⟨i, hi, hev, hna⟩ := hbad
        rcases i with _ | _ | j
        · exact absurd rfl (hna a)
        · omega
        · have h1 : rest.length ≤ n := by
            simp at hlen
            omega
          have h2 : rest.length % 2 = 0 := by
            simp at heven
            omega
          have hj : j < rest.length := by
            simp at hi
            omega
          exact ih rest (hm_insert acc a v) h1 h2 ⟨j, hj, by omega, fun a' => hna a'⟩
      | List l => exact ⟨.List l, rfl⟩
      | Vector l => exact ⟨.Vector l, rfl⟩
      | HashMap mm => exact ⟨.HashMap mm, rfl⟩

/-! ## The claims -/

/-- C1: for every value built only from Atom, List and Vector variants whose
atoms print to re-readable text (`value_readable`), reading the non-pretty
printed text yields back the same value.  The readability guard is necessary:
see the counterexample, where the bare claim fails on `Symbol ""`. -/
theorem claim_C1 (v : Value) (hr : value_readable v = true) :
    read_str (pr_str v false) = some (.ok v) :=
  read_str_pr v hr

theorem claim_C1_witness :
    value_readable (.List [.Atom (.Symbol "abc"), .Atom (.Int (-42)),
      .Vector [.Atom (.String "h\"i\n"), .Atom (.Keyword "k")], .Atom .Nil]) = true ∧
    read_str (pr_str (.List [.Atom (.Symbol "abc"), .Atom (.Int (-42)),
      .Vector [.Atom (.String "h\"i\n"), .Atom (.Keyword "k")], .Atom .Nil]) false) =
      some (.ok (.List [.Atom (.Symbol "abc"), .Atom (.Int (-42)),
        .Vector [.Atom (.String "h\"i\n"), .Atom (.Keyword "k")], .Atom .Nil])) :=
  ⟨by decide, claim_C1 _ (by decide)⟩

theorem claim_C1_counterexample :
    read_str (pr_str (.Atom (.Symbol "")) false) = some (.error .NoInput) ∧
    read_str (pr_str (.Atom (.Symbol "")) false) ≠ some (.ok (.Atom (.Symbol ""))) := by
  constructor
  · rfl
  · intro h
    rw [show read_str (pr_str (.Atom (.Symbol "")) false) = some (.error .NoInput)
      from rfl] at h
    injection h with h1
    injection h1

/-- C2: the tokenizer accepts '£' as a symbol constituent, yet on the input
"£" the cursor arithmetic slices the source one byte into the two-byte
character: the model's `peekBytes` hits a non-boundary offset and `tokenize`
and `read_str` return `none`, the model's rendering of a Rust panic — so the
no-panic claim is false on this input. -/
theorem claim_C2 :
    is_symbol_character '£' = true ∧
    is_symbol_character '¬' = true ∧
    peekBytes "£".data 1 = none ∧
    tokenize "£" = none ∧
    read_str "£" = none :=
  ⟨by decide, by decide, rfl, rfl, rfl⟩

/-- C3: corrected behavior of line comments.  A ';' does not merely yield no
token and move on: whenever the whitespace-skipping cursor comes to rest on a
';', the driving loop returns at once, so the entire remainder of the input
is discarded.  Concretely, "1 ; c\n2" tokenizes to just `[Int 1]` and a
comment-leading input tokenizes to `[]` even when real tokens follow on the
next line. -/
theorem claim_C3 {cs : List Char} {p q : Nat} (fuel : Nat)
    (hcw : consume_whitespace cs p = some q) (hpk : peek cs q = some (some ';')) :
    tokenizeF cs (fuel + 1) p = some (.ok []) ∧
    tokenize "1 ; c\n2" = some (.ok [Token.Int 1]) ∧
    tokenize "; c\n2" = some (.ok []) :=
  ⟨tokenize_comment_stop fuel hcw hpk, rfl, rfl⟩

theorem claim_C3_witness :
    tokenizeF ";".data (5 + 1) 0 = some (.ok []) ∧
    tokenize "1 ; c\n2" = some (.ok [Token.Int 1]) ∧
    tokenize "; c\n2" = some (.ok []) :=
  claim_C3 5 rfl rfl

theorem claim_C3_counterexample :
    tokenize "; x\n42" = some (.ok []) ∧
    tokenize "42" = some (.ok [Token.Int 42]) :=
  ⟨rfl, rfl⟩

/-- C4: corrected meaning of error positions.  Tokenizer errors carry byte
offsets into the source (which equal character offsets only on single-byte
input), and reader errors carry indices into the token vector — one past the
offending token for `UnexpectedToken`, the token count for
`UnexpectedEndOfInput` — not character offsets in the source text. -/
theorem claim_C4 :
    (∀ (s : String) (e : ParseError), OneByte s.data →
      tokenize s = some (.error e) → parse_err_facts s.data e) ∧
    (∀ (fuel pos : Nat) (tokens : List Token) (e : ReadError), pos ≤ tokens.length →
      read_form fuel tokens pos = some (.error e) → read_err_facts tokens e) := by
  constructor
  · intro s e h he
    exact tokenizeL_err_facts h he
  · intro fuel pos tokens e hp he
    exact (read_form_facts fuel pos hp).2 e he

theorem claim_C4_witness :
    OneByte "\"a".data ∧
    tokenize "\"a" = some (.error (.UnexpectedEndOfInput 2)) ∧
    parse_err_facts "\"a".data (.UnexpectedEndOfInput 2) ∧
    read_form 4 [Token.LParen] 0 = some (.error (.UnexpectedEndOfInput 1)) ∧
    read_err_facts [Token.LParen] (.UnexpectedEndOfInput 1) :=
  ⟨by decide, rfl, claim_C4.1 "\"a" (.UnexpectedEndOfInput 2) (by decide) rfl, rfl,
    claim_C4.2 4 0 [Token.LParen] (.UnexpectedEndOfInput 1) (by omega) rfl⟩

theorem claim_C4_counterexample :
    read_str "(1 2" = some (.error (.UnexpectedEndOfInput 3)) ∧
    "(1 2".data.length = 4 ∧
    tokenize "(1 2" = some (.ok [Token.LParen, Token.Int 1, Token.Int 2]) :=
  ⟨rfl, rfl, rfl⟩

/-- C5: for every string of single-byte characters, tokenizing the quoted
text produced by `escape_string` yields the single string token with exactly
the original contents.  The single-byte guard is necessary: on "£" the
re-tokenization hits the byte-slicing panic (see the counterexample). -/
theorem claim_C5 (s : String) (h : string_readable s = true) :
    tokenize ("\"" ++ escape_string s ++ "\"") = some (.ok [Token.String s]) :=
  tokenize_pr (.Atom (.String s)) h

theorem claim_C5_witness :
    string_readable "a\nb\"c\\d" = true ∧
    tokenize ("\"" ++ escape_string "a\nb\"c\\d" ++ "\"") =
      some (.ok [Token.String "a\nb\"c\\d"]) :=
  ⟨by decide, claim_C5 "a\nb\"c\\d" (by decide)⟩

theorem claim_C5_counterexample :
    escape_string "£" = "£" ∧
    tokenize ("\"" ++ escape_string "£" ++ "\"") = none :=
  ⟨rfl, rfl⟩

/-- C6: the quote shorthand and the with-meta shorthand desugar purely
syntactically to list forms, the with-meta form reading the metadata first
from the token stream but placing the target before the metadata. -/
theorem claim_C6 :
    read_str "'x" = some (.ok (.List [.Atom (.Symbol "quote"), .Atom (.Symbol "x")])) ∧
    read_str "^\x7b:a 1\x7d x" = some (.ok (.List [.Atom (.Symbol "with-meta"),
      .Atom (.Symbol "x"), .HashMap [(.Keyword "a", .Atom (.Int 1))]])) :=
  ⟨rfl, rfl⟩

/-- C7: input ending in the middle of a construct yields UnexpectedEndOfInput:
generally, the collection loop and the atom reader fail this way whenever the
token stream is exhausted, and concretely for an unterminated list, vector,
hash-map or string and for each shorthand form missing its operand. -/
theorem claim_C7 :
    (∀ rf (tokens : List Token) (pos fuel : Nat), Reader.peek tokens pos = none →
      ∀ terminator, read_list_items rf terminator tokens (fuel + 1) pos =
        some (.error (.UnexpectedEndOfInput pos))) ∧
    (∀ rf (tokens : List Token) (pos : Nat), Reader.peek tokens pos = none →
      read_atom rf tokens pos = some (.error (.UnexpectedEndOfInput pos))) ∧
    read_str "(1 2" = some (.error (.UnexpectedEndOfInput 3)) ∧
    read_str "[1 2" = some (.error (.UnexpectedEndOfInput 3)) ∧
    read_str "\x7b:a 1" = some (.error (.UnexpectedEndOfInput 3)) ∧
    read_str "\"1 2" = some (.error (.Parse (.UnexpectedEndOfInput 4))) ∧
    read_str "'" = some (.error (.UnexpectedEndOfInput 1)) ∧
    read_str "`" = some (.error (.UnexpectedEndOfInput 1)) ∧
    read_str "~" = some (.error (.UnexpectedEndOfInput 1)) ∧
    read_str "~@" = some (.error (.UnexpectedEndOfInput 1)) ∧
    read_str "@" = some (.error (.UnexpectedEndOfInput 1)) ∧
    read_str "^" = some (.error (.UnexpectedEndOfInput 1)) := by
  refine ⟨?_, ?_, rfl, rfl, rfl, rfl, rfl, rfl, rfl, rfl, rfl, rfl⟩
  · intro rf tokens pos fuel hpk terminator
    simp [read_list_items, hpk]
  · intro rf tokens pos hpk
    simp [read_atom, hpk]

theorem claim_C7_witness :
    read_list_items (fun _ => none) Token.RParen [Token.LParen] (3 + 1) 1 =
      some (.error (.UnexpectedEndOfInput 1)) ∧
    read_atom (fun _ => none) ([] : List Token) 0 =
      some (.error (.UnexpectedEndOfInput 0)) :=
  ⟨claim_C7.1 (fun _ => none) [Token.LParen] 1 3 rfl Token.RParen,
    claim_C7.2.1 (fun _ => none) [] 0 rfl⟩

/-- C8: corrected hash-map arity error.  An odd number of forms in a braced
literal fails, but with UnevenHashMap only when the dangling check is
reached: a non-atom key earlier in the (odd) item list preempts it with
UnhashableType, as the counterexample shows.  The concrete example of the
claim does hold. -/
theorem claim_C8 (pos : Nat) (items : List Value) (acc : List (Atom × Value))
    (hodd : items.length % 2 = 1) :
    (read_map_pairs pos items acc = .error (.UnevenHashMap pos) ∨
      ∃ w, read_map_pairs pos items acc = .error (.UnhashableType w pos)) ∧
    read_str "\x7b :a 1 :b \x7d" = some (.error (.UnevenHashMap 5)) :=
  ⟨read_map_pairs_odd pos items.length items acc (le_refl _) hodd, rfl⟩

theorem claim_C8_witness :
    [Value.Atom (Atom.Keyword "b")].length % 2 = 1 ∧
    ((read_map_pairs 5 [Value.Atom (Atom.Keyword "b")] [] =
        .error (.UnevenHashMap 5) ∨
      ∃ w, read_map_pairs 5 [Value.Atom (Atom.Keyword "b")] [] =
        .error (.UnhashableType w 5)) ∧
     read_str "\x7b :a 1 :b \x7d" = some (.error (.UnevenHashMap 5))) :=
  ⟨by decide, claim_C8 5 [Value.Atom (Atom.Keyword "b")] [] (by decide)⟩

theorem claim_C8_counterexample :
    read_str "\x7b[1] 2 3\x7d" =
      some (.error (.UnhashableType (.Vector [.Atom (.Int 1)]) 7)) ∧
    read_str "\x7b[1] 2 3\x7d" ≠ some (.error (.UnevenHashMap 7)) := by
  constructor
  · rfl
  · intro h
    rw [show read_str "\x7b[1] 2 3\x7d" =
      some (.error (.UnhashableType (.Vector [.Atom (.Int 1)]) 7)) from rfl] at h
    injection h with h1
    injection h1 with h2
    injection h2

/-- C9: hash maps only ever get Atom keys.  Whenever the pairing loop
succeeds every key position of the literal held an Atom; a List, Vector or
HashMap in a key position of an even-length literal produces an
UnhashableType error; and concretely a vector key fails rather than being
coerced. -/
theorem claim_C9 :
    (∀ (pos : Nat) (items : List Value) (acc : List (Atom × Value)) m,
      read_map_pairs pos items acc = .ok m →
      ∀ i (hi : i < items.length), i % 2 = 0 →
        ∃ a, items.get ⟨i, hi⟩ = Value.Atom a) ∧
    (∀ (pos : Nat) (items : List Value) (acc : List (Atom × Value)),
      items.length % 2 = 0 →
      (∃ i, ∃ hi : i < items.length, i % 2 = 0 ∧
        ∀ a, items.get ⟨i, hi⟩ ≠ Value.Atom a) →
      ∃ w, read_map_pairs pos items acc = .error (.UnhashableType w pos)) ∧
    read_str "\x7b [1] 2 \x7d" =
      some (.error (.UnhashableType (.Vector [.Atom (.Int 1)]) 6)) :=
  ⟨fun pos items acc m hok =>
      read_map_pairs_ok_atoms pos items.length items acc m (le_refl _) hok,
    fun pos items acc heven hbad =>
      read_map_pairs_bad_key pos items.length items acc (le_refl _) heven hbad,
    rfl⟩

theorem claim_C9_witness :
    (∃ a, [Value.Atom (Atom.Int 1), Value.Atom (Atom.Int 2)].get ⟨0, by decide⟩ =
      Value.Atom a) ∧
    (∃ w, read_map_pairs 9 [Value.Vector [], Value.Atom (Atom.Int 2)] [] =
      .error (.UnhashableType w 9)) :=
  ⟨claim_C9.1 9 [Value.Atom (Atom.Int 1), Value.Atom (Atom.Int 2)] []
      [(Atom.Int 1, Value.Atom (Atom.Int 2))] rfl 0 (by decide) rfl,
    claim_C9.2.1 9 [Value.Vector [], Value.Atom (Atom.Int 2)] [] rfl
      ⟨0, by decide, rfl, fun a h => Value.noConfusion h⟩⟩

/-- C10: every input that tokenizes to the empty token sequence — and
concretely the empty string, whitespace-and-commas input, and a comment-only
input — reads as the distinguished NoInput sentinel. -/
theorem claim_C10 :
    (∀ s : String, tokenize s = some (.ok []) → read_str s = some (.error .NoInput)) ∧
    read_str "" = some (.error .NoInput) ∧
    read_str " ,, " = some (.error .NoInput) ∧
    read_str "; comment" = some (.error .NoInput) := by
  refine ⟨fun s hs => ?_, rfl, rfl, rfl⟩
  have hs' : tokenizeL s.data = some (.ok []) := hs
  simp [read_str, read_strL, hs']

theorem claim_C10_witness :
    read_str " ,,, " = some (.error .NoInput) :=
  claim_C10.1 " ,,, " rfl

end Mal
